import Mathlib

/-!
# Verification of the ScheduleAI hybrid timetable engine

Shallow embedding of the Python package `hybrid_timetable` (session expansion,
greedy room assignment, clash detection, GA genome encoding and fitness) and
proofs of the specification claims about it.

Conventions of the embedding:
* Python `dict`s are represented as association lists in insertion order;
  `dict.get(k, d)` becomes a first-match lookup with default, and
  `dict[k] = v` becomes an in-place update of the first matching key
  (appending a fresh key at the end), exactly Python 3.7+ semantics.
* Python `set`s of slots are represented as lists whose membership is the
  set's membership (insertion multiplicity is irrelevant to every use).
* Python `str(i)` for a nonnegative `i` is `Nat.repr`.
* Machine integers are `Nat` / `Int` / `ℚ`; Python float literals such as
  `0.05` are embedded as the exact rationals they denote in the source text.
-/

/-- A course's `group` field is either a single identifier or a list
(`isinstance(c["group"], list)` in `helpers.py`). -/
inductive GroupSpec where
  | single (g : String)
  | multi (gs : List String)
deriving DecidableEq

/-- Input course record (`helpers.py` reads keys `id`, `name`, `faculty`,
`group`, `weekly_slots`, `consecutive`). -/
structure Course where
  id : String
  name : String
  faculty : String
  group : GroupSpec
  weekly_slots : Nat
  consecutive : Nat
deriving DecidableEq

/-- Session record produced by `expand_courses`.  The optional `groups` field
models the `"groups"` dictionary key that `detect_clashes` probes with
`"groups" in meta`; sessions built by `expand_courses` do not carry it. -/
structure Session where
  sess_id : String
  course_id : String
  name : String
  faculty : String
  group : String
  length : Nat
  groups : Option (List String) := none
deriving DecidableEq

/-- Room record (`name`, `capacity`). -/
structure Room where
  name : String
  capacity : Nat
deriving DecidableEq

/-- `groups = c["group"] if isinstance(c["group"], list) else [c["group"]]`. -/
def normGroups (c : Course) : List String :=
  match c.group with
  | .single g => [g]
  | .multi gs => gs

/-! ## String helpers

`'lab' in name.lower()` and friends.  The three fixed-pattern substring
checks are written as direct recursions over the character list. -/

/-- Substring test for the fixed pattern `"lab"`. -/
def containsLab : List Char → Bool
  | 'l' :: 'a' :: 'b' :: _ => true
  | _ :: cs => containsLab cs
  | [] => false

/-- Substring test for the fixed pattern `"project"`. -/
def containsProject : List Char → Bool
  | 'p' :: 'r' :: 'o' :: 'j' :: 'e' :: 'c' :: 't' :: _ => true
  | _ :: cs => containsProject cs
  | [] => false

/-- Substring test for the fixed pattern `"elective"`. -/
def containsElective : List Char → Bool
  | 'e' :: 'l' :: 'e' :: 'c' :: 't' :: 'i' :: 'v' :: 'e' :: _ => true
  | _ :: cs => containsElective cs
  | [] => false

/-- `s.lower()` as a character list (`str.lower` maps every character;
`Char.toLower` is the per-character lowering). -/
def lowerData (s : String) : List Char := s.data.map Char.toLower

/-- `'lab' in s.lower()`. -/
def hasLab (s : String) : Bool := containsLab (lowerData s)

/-- `('lab' in s.lower()) or ('project' in s.lower())`. -/
def isLabName (s : String) : Bool :=
  containsLab (lowerData s) || containsProject (lowerData s)

/-! ## Association-list machinery shared by the embeddings -/

/-- `d.get(k, 0)` for a `dict` represented as an association list. -/
def gsLookup (gs : List (String × Nat)) (g : String) : Nat :=
  match gs with
  | [] => 0
  | (k, v) :: rest => if k = g then v else gsLookup rest g

/-- `d[k] = v` on a Python dict: replace the value of an existing key in
place, else append the new key at the end. -/
def updateAssoc {β : Type} (l : List (String × β)) (k : String) (v : β) :
    List (String × β) :=
  match l with
  | [] => [(k, v)]
  | (k2, v2) :: rest =>
      if k2 = k then (k2, v) :: rest else (k2, v2) :: updateAssoc rest k v

/-- First-match lookup (`d[k]` / `d.get(k)`). -/
def lookupA {β : Type} (l : List (String × β)) (k : String) : Option β :=
  match l with
  | [] => none
  | (k2, v) :: rest => if k2 = k then some v else lookupA rest k

/-! ### `defaultdict(list)` buckets

`bucketAdd m k v` is `m[k].append(v)`; `buildBuckets ops` replays a list of
such appends starting from the empty dict.  Keys appear in first-insertion
order, exactly as a Python dict iterates. -/

variable {κ σ : Type}

/-- `m[k].append(v)` on a `defaultdict(list)`. -/
def bucketAdd [DecidableEq κ] (m : List (κ × List σ)) (k : κ) (v : σ) :
    List (κ × List σ) :=
  match m with
  | [] => [(k, [v])]
  | (k2, vs) :: rest =>
      if k2 = k then (k2, vs ++ [v]) :: rest else (k2, vs) :: bucketAdd rest k v

/-- Replay a list of keyed appends on the empty `defaultdict(list)`. -/
def buildBuckets [DecidableEq κ] (ops : List (κ × σ)) : List (κ × List σ) :=
  ops.foldl (fun m p => bucketAdd m p.1 p.2) []

/-- Bucket read with default `[]`. -/
def getBucket [DecidableEq κ] (m : List (κ × List σ)) (k : κ) : List σ :=
  match m with
  | [] => []
  | (k2, vs) :: rest => if k2 = k then vs else getBucket rest k

theorem getBucket_bucketAdd [DecidableEq κ] (m : List (κ × List σ)) (k k2 : κ) (v : σ) :
    getBucket (bucketAdd m k v) k2 =
      if k2 = k then getBucket m k2 ++ [v] else getBucket m k2 := by
  induction m with
  | nil =>
      by_cases h : k2 = k
      · subst h; simp [bucketAdd, getBucket]
      · simp [bucketAdd, getBucket, h, Ne.symm h]
  | cons p rest ih =>
      obtain ⟨k3, vs⟩ := p
      by_cases h3 : k3 = k
      · subst h3
        by_cases h : k2 = k3
        · subst h; simp [bucketAdd, getBucket]
        · simp [bucketAdd, getBucket, h, Ne.symm h]
      · by_cases h : k2 = k3
        · subst h
          simp [bucketAdd, getBucket, h3, Ne.symm h3]
        · simp [bucketAdd, getBucket, h3, h, Ne.symm h, ih]

theorem getBucket_foldl [DecidableEq κ] (ops : List (κ × σ))
    (m : List (κ × List σ)) (k : κ) :
    getBucket (ops.foldl (fun m p => bucketAdd m p.1 p.2) m) k =
      getBucket m k ++ (ops.filter (fun p => p.1 = k)).map Prod.snd := by
  induction ops generalizing m with
  | nil => simp
  | cons p rest ih =>
      obtain ⟨kp, vp⟩ := p
      by_cases h : kp = k
      · subst h
        simp [List.foldl_cons, ih, getBucket_bucketAdd, List.filter_cons]
      · simp [List.foldl_cons, ih, getBucket_bucketAdd,
          Ne.symm h, List.filter_cons, h]

theorem getBucket_buildBuckets [DecidableEq κ] (ops : List (κ × σ)) (k : κ) :
    getBucket (buildBuckets ops) k = (ops.filter (fun p => p.1 = k)).map Prod.snd := by
  simpa [buildBuckets, getBucket] using getBucket_foldl ops [] k

theorem keys_bucketAdd [DecidableEq κ] (m : List (κ × List σ)) (k : κ) (v : σ) :
    (bucketAdd m k v).map Prod.fst =
      if k ∈ m.map Prod.fst then m.map Prod.fst else m.map Prod.fst ++ [k] := by
  induction m with
  | nil => simp [bucketAdd]
  | cons p rest ih =>
      obtain ⟨k2, vs⟩ := p
      by_cases h : k2 = k
      · subst h
        simp [bucketAdd]
      · simp only [bucketAdd, if_neg h, List.map_cons, ih, List.mem_cons]
        by_cases hm : k ∈ rest.map Prod.fst
        · simp [hm]
        · simp [hm, Ne.symm h]

theorem nodupKeys_bucketAdd [DecidableEq κ] (m : List (κ × List σ)) (k : κ) (v : σ)
    (h : (m.map Prod.fst).Nodup) : ((bucketAdd m k v).map Prod.fst).Nodup := by
  rw [keys_bucketAdd]
  by_cases hm : k ∈ m.map Prod.fst
  · simpa [hm] using h
  · simp only [hm, if_false]
    refine List.Nodup.append h (List.nodup_singleton k) ?_
    intro a ha hak
    rw [List.mem_singleton] at hak
    subst hak
    exact hm ha

theorem nodupKeys_buildBuckets [DecidableEq κ] (ops : List (κ × σ)) :
    ((buildBuckets ops).map Prod.fst).Nodup := by
  suffices h : ∀ m : List (κ × List σ), (m.map Prod.fst).Nodup →
      ((ops.foldl (fun m p => bucketAdd m p.1 p.2) m).map Prod.fst).Nodup by
    exact h [] (by simp)
  induction ops with
  | nil => intro m hm; simpa using hm
  | cons p rest ih =>
      intro m hm
      exact ih _ (nodupKeys_bucketAdd m p.1 p.2 hm)

theorem mem_keys_bucketAdd [DecidableEq κ] (m : List (κ × List σ)) (k k2 : κ) (v : σ) :
    k2 ∈ (bucketAdd m k v).map Prod.fst ↔ k2 ∈ m.map Prod.fst ∨ k2 = k := by
  rw [keys_bucketAdd]
  by_cases hm : k ∈ m.map Prod.fst
  · simp only [hm, if_true]
    constructor
    · exact fun h => Or.inl h
    · rintro (h | rfl)
      · exact h
      · exact hm
  · simp [hm, or_comm]

theorem mem_keys_buildBuckets [DecidableEq κ] (ops : List (κ × σ)) (k : κ) :
    k ∈ (buildBuckets ops).map Prod.fst ↔ k ∈ ops.map Prod.fst := by
  suffices h : ∀ m : List (κ × List σ),
      (k ∈ (ops.foldl (fun m p => bucketAdd m p.1 p.2) m).map Prod.fst ↔
        k ∈ m.map Prod.fst ∨ k ∈ ops.map Prod.fst) by
    simpa [buildBuckets] using h []
  induction ops with
  | nil => intro m; simp
  | cons p rest ih =>
      intro m
      simp only [List.foldl_cons, ih, mem_keys_bucketAdd, List.map_cons, List.mem_cons]
      tauto

theorem value_eq_getBucket_of_nodupKeys [DecidableEq κ]
    (m : List (κ × List σ)) (h : (m.map Prod.fst).Nodup) :
    ∀ p ∈ m, p.2 = getBucket m p.1 := by
  induction m with
  | nil => intro p hp; cases hp
  | cons q rest ih =>
      intro p hp
      obtain ⟨kq, vq⟩ := q
      rw [List.mem_cons] at hp
      rcases hp with rfl | hp
      · simp [getBucket]
      · have hk : kq ≠ p.1 := by
          intro hh
          have hmem : p.1 ∈ rest.map Prod.fst := List.mem_map_of_mem Prod.fst hp
          rw [← hh] at hmem
          exact (List.nodup_cons.mp (by simpa using h)).1 hmem
        have hrec := ih (List.nodup_cons.mp (by simpa using h)).2 p hp
        simp [getBucket, hk, hrec]

/-! ### `defaultdict(int)` counters (`m[k] += amt`) -/

/-- `m[k] += amt` on a `defaultdict(int)`. -/
def cntAdd [DecidableEq κ] (m : List (κ × Nat)) (k : κ) (amt : Nat) : List (κ × Nat) :=
  match m with
  | [] => [(k, amt)]
  | (k2, n) :: rest =>
      if k2 = k then (k2, n + amt) :: rest else (k2, n) :: cntAdd rest k amt

/-- Replay a list of keyed increments on the empty `defaultdict(int)`. -/
def buildCnts [DecidableEq κ] (ops : List (κ × Nat)) : List (κ × Nat) :=
  ops.foldl (fun m p => cntAdd m p.1 p.2) []

/-- Counter read with default `0` (`d.get(k, 0)` / `defaultdict` access). -/
def getCnt [DecidableEq κ] (m : List (κ × Nat)) (k : κ) : Nat :=
  match m with
  | [] => 0
  | (k2, n) :: rest => if k2 = k then n else getCnt rest k

theorem getCnt_cntAdd [DecidableEq κ] (m : List (κ × Nat)) (k k2 : κ) (amt : Nat) :
    getCnt (cntAdd m k amt) k2 =
      if k2 = k then getCnt m k2 + amt else getCnt m k2 := by
  induction m with
  | nil =>
      by_cases h : k2 = k
      · subst h; simp [cntAdd, getCnt]
      · simp [cntAdd, getCnt, h, Ne.symm h]
  | cons p rest ih =>
      obtain ⟨k3, n⟩ := p
      by_cases h3 : k3 = k
      · subst h3
        by_cases h : k2 = k3
        · subst h; simp [cntAdd, getCnt]
        · simp [cntAdd, getCnt, h, Ne.symm h]
      · by_cases h : k2 = k3
        · subst h
          simp [cntAdd, getCnt, h3, Ne.symm h3]
        · simp [cntAdd, getCnt, h3, h, Ne.symm h, ih]

theorem getCnt_foldl [DecidableEq κ] (ops : List (κ × Nat)) (m : List (κ × Nat)) (k : κ) :
    getCnt (ops.foldl (fun m p => cntAdd m p.1 p.2) m) k =
      getCnt m k + ((ops.filter (fun p => p.1 = k)).map Prod.snd).sum := by
  induction ops generalizing m with
  | nil => simp
  | cons p rest ih =>
      obtain ⟨kp, vp⟩ := p
      by_cases h : kp = k
      · subst h
        simp [List.foldl_cons, ih, getCnt_cntAdd, List.filter_cons]
        ring
      · simp [List.foldl_cons, ih, getCnt_cntAdd, Ne.symm h, List.filter_cons, h]

theorem getCnt_buildCnts [DecidableEq κ] (ops : List (κ × Nat)) (k : κ) :
    getCnt (buildCnts ops) k = ((ops.filter (fun p => p.1 = k)).map Prod.snd).sum := by
  simpa [buildCnts, getCnt] using getCnt_foldl ops [] k

theorem keys_cntAdd [DecidableEq κ] (m : List (κ × Nat)) (k : κ) (amt : Nat) :
    (cntAdd m k amt).map Prod.fst =
      if k ∈ m.map Prod.fst then m.map Prod.fst else m.map Prod.fst ++ [k] := by
  induction m with
  | nil => simp [cntAdd]
  | cons p rest ih =>
      obtain ⟨k2, n⟩ := p
      by_cases h : k2 = k
      · subst h
        simp [cntAdd]
      · simp only [cntAdd, if_neg h, List.map_cons, ih, List.mem_cons]
        by_cases hm : k ∈ rest.map Prod.fst
        · simp [hm]
        · simp [hm, Ne.symm h]

theorem nodupKeys_cntAdd [DecidableEq κ] (m : List (κ × Nat)) (k : κ) (amt : Nat)
    (h : (m.map Prod.fst).Nodup) : ((cntAdd m k amt).map Prod.fst).Nodup := by
  rw [keys_cntAdd]
  by_cases hm : k ∈ m.map Prod.fst
  · simpa [hm] using h
  · simp only [hm, if_false]
    refine List.Nodup.append h (List.nodup_singleton k) ?_
    intro a ha hak
    rw [List.mem_singleton] at hak
    subst hak
    exact hm ha

theorem nodupKeys_buildCnts [DecidableEq κ] (ops : List (κ × Nat)) :
    ((buildCnts ops).map Prod.fst).Nodup := by
  suffices h : ∀ m : List (κ × Nat), (m.map Prod.fst).Nodup →
      ((ops.foldl (fun m p => cntAdd m p.1 p.2) m).map Prod.fst).Nodup by
    exact h [] (by simp)
  induction ops with
  | nil => intro m hm; simpa using hm
  | cons p rest ih =>
      intro m hm
      exact ih _ (nodupKeys_cntAdd m p.1 p.2 hm)

theorem cntValue_eq_getCnt_of_nodupKeys [DecidableEq κ]
    (m : List (κ × Nat)) (h : (m.map Prod.fst).Nodup) :
    ∀ p ∈ m, p.2 = getCnt m p.1 := by
  induction m with
  | nil => intro p hp; cases hp
  | cons q rest ih =>
      intro p hp
      obtain ⟨kq, vq⟩ := q
      rw [List.mem_cons] at hp
      rcases hp with rfl | hp
      · simp [getCnt]
      · have hk : kq ≠ p.1 := by
          intro hh
          have hmem : p.1 ∈ rest.map Prod.fst := List.mem_map_of_mem Prod.fst hp
          rw [← hh] at hmem
          exact (List.nodup_cons.mp (by simpa using h)).1 hmem
        have hrec := ih (List.nodup_cons.mp (by simpa using h)).2 p hp
        simp [getCnt, hk, hrec]

/-! ## Session expansion (`utils/helpers.py`, `expand_courses`)

`expand_courses` builds session ids by f-string interpolation
(`f"{c['id']}_{g}_s{i}"`, `f"{c['id']}_{g}_lab{i}"`); `str(i)` for a natural
number is `Nat.repr`.  The divisibility check sits inside the per-group loop
of the `k ≠ 1` branch; Python raises `ZeroDivisionError` on `n % 0` before
the `ValueError` check can fire, which the embedding mirrors with a distinct
error string. -/

/-- Message of the `ValueError` raised by `expand_courses`. -/
def valueErrorMsg : String := "weekly_slots must be divisible by consecutive length."

/-- Stand-in for Python's `ZeroDivisionError` on `n % 0`. -/
def zeroDivisionErrorMsg : String := "ZeroDivisionError: integer modulo by zero"

/-- `f"{cid}_{g}_s{i}"`. -/
def mkLecId (cid g : String) (i : Nat) : String :=
  cid ++ "_" ++ g ++ "_s" ++ Nat.repr i

/-- `f"{cid}_{g}_lab{i}"`. -/
def mkLabId (cid g : String) (i : Nat) : String :=
  cid ++ "_" ++ g ++ "_lab" ++ Nat.repr i

/-- Session dict built in the `k == 1` branch. -/
def lecSession (c : Course) (g : String) (i : Nat) : Session :=
  { sess_id := mkLecId c.id g i, course_id := c.id, name := c.name,
    faculty := c.faculty, group := g, length := 1 }

/-- Session dict built in the `k > 1` branch. -/
def labSession (c : Course) (g : String) (i : Nat) : Session :=
  { sess_id := mkLabId c.id g i, course_id := c.id, name := c.name,
    faculty := c.faculty, group := g, length := c.consecutive }

/-- The `for g in groups` loop body of `expand_courses` for one course. -/
def expandGroups (c : Course) : List String → Except String (List Session)
  | [] => Except.ok []
  | g :: gs =>
      if c.consecutive = 1 then
        match expandGroups c gs with
        | Except.error e => Except.error e
        | Except.ok rest =>
            Except.ok ((List.range c.weekly_slots).map (lecSession c g) ++ rest)
      else
        if c.consecutive = 0 then Except.error zeroDivisionErrorMsg
        else if c.weekly_slots % c.consecutive ≠ 0 then Except.error valueErrorMsg
        else
          match expandGroups c gs with
          | Except.error e => Except.error e
          | Except.ok rest =>
              Except.ok ((List.range (c.weekly_slots / c.consecutive)).map (labSession c g) ++ rest)

/-- `expand_courses(courses)`: flatten every course into sessions, raising on
the first offending course. -/
def expand_courses : List Course → Except String (List Session)
  | [] => Except.ok []
  | c :: cs =>
      match expandGroups c (normGroups c) with
      | Except.error e => Except.error e
      | Except.ok ss =>
          match expand_courses cs with
          | Except.error e => Except.error e
          | Except.ok rest => Except.ok (ss ++ rest)

/-! ### Injectivity of the decimal session-id components

`str(i)` is `Nat.repr`; the lemmas below recover `i` from its digit string
and show the digits never contain an underscore, which is what the id
format `f"{id}_{g}_s{i}"` needs for unambiguous parsing. -/

/-- Numeric value of a decimal digit character. -/
def digitVal (c : Char) : Nat := c.toNat - '0'.toNat

/-- Value of a digit string read most-significant first. -/
def digitsVal (l : List Char) : Nat := l.foldl (fun a c => a * 10 + digitVal c) 0

theorem toDigitsCore_append (fuel : Nat) :
    ∀ (n : Nat) (ds : List Char),
      Nat.toDigitsCore 10 fuel n ds = Nat.toDigitsCore 10 fuel n [] ++ ds := by
  induction fuel with
  | zero => intro n ds; simp [Nat.toDigitsCore]
  | succ fuel ih =>
      intro n ds
      simp only [Nat.toDigitsCore]
      by_cases h : n / 10 = 0
      · simp [h]
      · simp only [h, if_false]
        rw [ih (n / 10) (Nat.digitChar (n % 10) :: ds),
          ih (n / 10) [Nat.digitChar (n % 10)]]
        simp

theorem digitVal_digitChar (d : Nat) (h : d < 10) :
    digitVal (Nat.digitChar d) = d := by
  interval_cases d <;> decide

theorem digitsVal_toDigitsCore (fuel : Nat) :
    ∀ n : Nat, n < 10 ^ fuel → digitsVal (Nat.toDigitsCore 10 fuel n []) = n := by
  induction fuel with
  | zero => intro n hn; interval_cases n; simp [Nat.toDigitsCore, digitsVal]
  | succ fuel ih =>
      intro n hn
      simp only [Nat.toDigitsCore]
      by_cases h : n / 10 = 0
      · have hlt : n < 10 := by omega
        have hmod : n % 10 = n := Nat.mod_eq_of_lt hlt
        simp [h, digitsVal, hmod, digitVal_digitChar n hlt]
      · simp only [h, if_false]
        rw [toDigitsCore_append fuel (n / 10) [Nat.digitChar (n % 10)]]
        have hq : n / 10 < 10 ^ fuel := by
          rw [Nat.div_lt_iff_lt_mul (by norm_num)]
          calc n < 10 ^ (fuel + 1) := hn
          _ = 10 ^ fuel * 10 := by rw [pow_succ]
        have hval := ih (n / 10) hq
        simp only [digitsVal] at hval ⊢
        rw [List.foldl_append, hval]
        simp [digitVal_digitChar (n % 10) (Nat.mod_lt n (by norm_num))]
        omega

theorem repr_injective (m n : Nat) (h : Nat.repr m = Nat.repr n) : m = n := by
  have hdig : Nat.toDigits 10 m = Nat.toDigits 10 n := by
    have := congrArg String.data h
    simpa [Nat.repr, List.asString] using this
  have hm : m < 10 ^ (m + 1) := by
    calc m < 10 ^ m := Nat.lt_pow_self (by norm_num) m
    _ ≤ 10 ^ (m + 1) := Nat.pow_le_pow_right (by norm_num) (Nat.le_succ m)
  have hn : n < 10 ^ (n + 1) := by
    calc n < 10 ^ n := Nat.lt_pow_self (by norm_num) n
    _ ≤ 10 ^ (n + 1) := Nat.pow_le_pow_right (by norm_num) (Nat.le_succ n)
  have h1 := digitsVal_toDigitsCore (m + 1) m hm
  have h2 := digitsVal_toDigitsCore (n + 1) n hn
  rw [show Nat.toDigitsCore 10 (m + 1) m [] = Nat.toDigits 10 m from rfl, hdig] at h1
  rw [show Nat.toDigitsCore 10 (n + 1) n [] = Nat.toDigits 10 n from rfl] at h2
  omega

theorem mem_toDigitsCore (fuel : Nat) :
    ∀ (n : Nat) (ds : List Char) (c : Char), c ∈ Nat.toDigitsCore 10 fuel n ds →
      c ∈ ds ∨ ∃ d, d < 10 ∧ c = Nat.digitChar d := by
  induction fuel with
  | zero => intro n ds c hc; exact Or.inl hc
  | succ fuel ih =>
      intro n ds c hc
      simp only [Nat.toDigitsCore] at hc
      by_cases h : n / 10 = 0
      · simp only [h, if_true] at hc
        rcases List.mem_cons.mp hc with rfl | hc
        · exact Or.inr ⟨n % 10, Nat.mod_lt n (by norm_num), rfl⟩
        · exact Or.inl hc
      · simp only [h, if_false] at hc
        rcases ih (n / 10) (Nat.digitChar (n % 10) :: ds) c hc with hc2 | hc2
        · rcases List.mem_cons.mp hc2 with rfl | hc3
          · exact Or.inr ⟨n % 10, Nat.mod_lt n (by norm_num), rfl⟩
          · exact Or.inl hc3
        · exact Or.inr hc2

theorem underscore_not_mem_repr (n : Nat) : '_' ∉ (Nat.repr n).data := by
  intro hmem
  have : '_' ∈ Nat.toDigits 10 n := by
    simpa [Nat.repr, List.asString] using hmem
  rcases mem_toDigitsCore (n + 1) n [] '_' this with h | ⟨d, hd, hc⟩
  · cases h
  · interval_cases d <;> exact absurd hc (by decide)

/-- Splitting an underscore-separated concatenation whose first component is
underscore-free is unambiguous. -/
theorem underscore_split (a1 : List Char) :
    ∀ (a2 r1 r2 : List Char), '_' ∉ a1 → '_' ∉ a2 →
      a1 ++ '_' :: r1 = a2 ++ '_' :: r2 → a1 = a2 ∧ r1 = r2 := by
  induction a1 with
  | nil =>
      intro a2 r1 r2 _ h2 heq
      cases a2 with
      | nil => simpa using heq
      | cons c rest =>
          exfalso
          have : '_' = c := by simpa using congrArg (fun l => l.headD ' ') heq
          exact h2 (by simp [← this])
  | cons c rest1 ih =>
      intro a2 r1 r2 h1 h2 heq
      cases a2 with
      | nil =>
          exfalso
          have : c = '_' := by simpa using congrArg (fun l => l.headD ' ') heq
          exact h1 (by simp [this])
      | cons c2 rest2 =>
          have hc : c = c2 := by simpa using congrArg (fun l => l.headD ' ') heq
          subst hc
          have htl : rest1 ++ '_' :: r1 = rest2 ++ '_' :: r2 := by
            simpa using congrArg List.tail heq
          have h1r : '_' ∉ rest1 := fun hh => h1 (List.mem_cons_of_mem c hh)
          have h2r : '_' ∉ rest2 := fun hh => h2 (List.mem_cons_of_mem c hh)
          obtain ⟨he, ht⟩ := ih rest2 r1 r2 h1r h2r htl
          exact ⟨by rw [he], ht⟩

/-- Common shape of both session-id formats: `lab` selects the
`"lab"`/`"s"` marker. -/
def sessIdFmt (lab : Bool) (cid g : String) (i : Nat) : String :=
  if lab then mkLabId cid g i else mkLecId cid g i

theorem data_sessIdFmt (lab : Bool) (cid g : String) (i : Nat) :
    (sessIdFmt lab cid g i).data =
      cid.data ++ '_' ::
        (g.data ++ '_' :: ((if lab then ['l', 'a', 'b'] else ['s']) ++ (Nat.repr i).data)) := by
  have h1 : ("_" : String).data = ['_'] := rfl
  have h2 : ("_s" : String).data = ['_', 's'] := rfl
  have h3 : ("_lab" : String).data = ['_', 'l', 'a', 'b'] := rfl
  cases lab <;> simp [sessIdFmt, mkLabId, mkLecId, h1, h2, h3]

theorem reprData_injective (m n : Nat) (h : (Nat.repr m).data = (Nat.repr n).data) :
    m = n :=
  repr_injective m n (String.ext h)

/-- Unambiguous parsing of session ids: distinct `(course id, group, branch,
index)` tuples give distinct ids whenever the course id and the group contain
no underscore. -/
theorem sessIdFmt_injective (lab1 lab2 : Bool) (c1 g1 c2 g2 : String) (i1 i2 : Nat)
    (hc1 : '_' ∉ c1.data) (hg1 : '_' ∉ g1.data)
    (hc2 : '_' ∉ c2.data) (hg2 : '_' ∉ g2.data)
    (heq : sessIdFmt lab1 c1 g1 i1 = sessIdFmt lab2 c2 g2 i2) :
    lab1 = lab2 ∧ c1 = c2 ∧ g1 = g2 ∧ i1 = i2 := by
  have h := congrArg String.data heq
  rw [data_sessIdFmt, data_sessIdFmt] at h
  obtain ⟨hcid, h2⟩ := underscore_split c1.data c2.data _ _ hc1 hc2 h
  obtain ⟨hgrp, h3⟩ := underscore_split g1.data g2.data _ _ hg1 hg2 h2
  cases lab1 <;> cases lab2
  · simp only [Bool.false_eq_true, if_false] at h3
    have htail : (Nat.repr i1).data = (Nat.repr i2).data := by simpa using h3
    exact ⟨rfl, String.ext hcid, String.ext hgrp, reprData_injective i1 i2 htail⟩
  · exfalso
    simp only [Bool.false_eq_true, if_false, if_true] at h3
    have : 's' = 'l' := by simpa using congrArg (fun l => l.headD ' ') h3
    exact absurd this (by decide)
  · exfalso
    simp only [Bool.false_eq_true, if_false, if_true] at h3
    have : 'l' = 's' := by simpa using congrArg (fun l => l.headD ' ') h3
    exact absurd this (by decide)
  · simp only [if_true] at h3
    have htail : (Nat.repr i1).data = (Nat.repr i2).data := by simpa using h3
    exact ⟨rfl, String.ext hcid, String.ext hgrp, reprData_injective i1 i2 htail⟩

/-! ## Greedy room assignment (`room_assignment.py`)

* `schedule_times` is the dict of start times, modelled as a total function
  (the engine always calls it with every session id present; a missing key
  would raise `KeyError`, not return).
* `room_schedule` is a list of per-room slot sets (`set()` modelled as a
  list used only through membership).
* Python's `sorted` is a stable ascending sort by key; a stable sort equals
  `List.insertionSort` with the non-strict key comparison, which is used
  below with the key `(-length, -group size)`.
* `room_order.sort(key=...)` on a boolean key stably puts the `False`-keyed
  indices first, i.e. it is `filter (¬key) ++ filter key` on `range`.
-/

/-- Out-of-range default; Python would raise `IndexError` instead, which no
reachable call does (indices always come from `range(len(rooms))`). -/
def defaultRoom : Room := { name := "", capacity := 0 }

/-- `rooms[r]`. -/
def getRoom (rooms : List Room) (r : Nat) : Room := rooms.getD r defaultRoom

/-- The absolute slots `start + off, off < length` occupied by a session. -/
def occupiedSlots (times : String → Nat) (s : Session) : List Nat :=
  (List.range s.length).map (fun off => times s.sess_id + off)

/-- Stable-sort comparison for `sorted(sessions, key=lambda s:
(-s['length'], -group_sizes.get(s['group'], 0)))`. -/
def greedyLE (gs : List (String × Nat)) (s t : Session) : Prop :=
  t.length < s.length ∨
    (s.length = t.length ∧ gsLookup gs t.group ≤ gsLookup gs s.group)

instance (gs : List (String × Nat)) : DecidableRel (greedyLE gs) := by
  intro s t
  unfold greedyLE
  infer_instance

/-- `sess_list = sorted(sessions, key=...)`. -/
def greedySorted (gs : List (String × Nat)) (sessions : List Session) : List Session :=
  List.insertionSort (greedyLE gs) sessions

/-- `room_order`: all room indices, matching-preference rooms first
(stable boolean-key sort). -/
def roomOrder (rooms : List Room) (s : Session) : List Nat :=
  let key := fun r => hasLab (getRoom rooms r).name != isLabName s.name
  (List.range rooms.length).filter (fun r => !key r) ++
    (List.range rooms.length).filter (fun r => key r)

/-- The `for r in room_order` loop: first room that fits by capacity and has
no slot conflict. -/
def findRoomIn (times : String → Nat) (rooms : List Room)
    (sched : List (List Nat)) (s : Session) (size : Nat) :
    List Nat → Option Nat
  | [] => none
  | r :: rest =>
      if size > (getRoom rooms r).capacity then
        findRoomIn times rooms sched s size rest
      else if (occupiedSlots times s).any (fun t => decide (t ∈ sched.getD r [])) then
        findRoomIn times rooms sched s size rest
      else some r

/-- The outer `for s in sess_list` loop, threading the room schedules and
the assignment dict. -/
def greedyGo (times : String → Nat) (rooms : List Room) (gs : List (String × Nat)) :
    List Session → List (List Nat) → List (String × String) →
      Option (List (String × String))
  | [], _, asg => some asg
  | s :: rest, sched, asg =>
      match findRoomIn times rooms sched s (gsLookup gs s.group) (roomOrder rooms s) with
      | none => none
      | some r =>
          greedyGo times rooms gs rest
            (sched.set r (occupiedSlots times s ++ sched.getD r []))
            (updateAssoc asg s.sess_id (getRoom rooms r).name)

/-- `greedy_room_assignment(schedule_times, sessions, rooms, group_sizes)`. -/
def greedy_room_assignment (schedule_times : String → Nat) (sessions : List Session)
    (rooms : List Room) (group_sizes : List (String × Nat)) :
    Option (List (String × String)) :=
  greedyGo schedule_times rooms group_sizes
    (greedySorted group_sizes sessions)
    (List.replicate rooms.length []) []

/-! ### Correctness lemmas for greedy room assignment -/

theorem lookupA_eq_none_of_not_mem (l : List (String × String)) (k : String)
    (h : k ∉ l.map Prod.fst) : lookupA l k = none := by
  induction l with
  | nil => rfl
  | cons p rest ih =>
      obtain ⟨k2, v⟩ := p
      simp only [List.map_cons, List.mem_cons] at h
      push_neg at h
      simp [lookupA, Ne.symm h.1, ih h.2]

theorem updateAssoc_fresh (l : List (String × String)) (k v : String)
    (h : k ∉ l.map Prod.fst) : updateAssoc l k v = l ++ [(k, v)] := by
  induction l with
  | nil => rfl
  | cons p rest ih =>
      obtain ⟨k2, v2⟩ := p
      simp only [List.map_cons, List.mem_cons] at h
      push_neg at h
      simp [updateAssoc, h.1, Ne.symm h.1, ih h.2]

theorem lookupA_append_left (l l2 : List (String × String)) (k : String) (v : String)
    (h : lookupA l k = some v) : lookupA (l ++ l2) k = some v := by
  induction l with
  | nil => simp [lookupA] at h
  | cons p rest ih =>
      obtain ⟨k2, v2⟩ := p
      by_cases hk : k2 = k
      · simpa [lookupA, hk] using h
      · simp only [lookupA, hk, if_false] at h
        simpa [lookupA, hk] using ih h

theorem lookupA_append_fresh (l : List (String × String)) (k v : String)
    (h : k ∉ l.map Prod.fst) : lookupA (l ++ [(k, v)]) k = some v := by
  induction l with
  | nil => simp [lookupA]
  | cons p rest ih =>
      obtain ⟨k2, v2⟩ := p
      simp only [List.map_cons, List.mem_cons] at h
      push_neg at h
      simp [lookupA, Ne.symm h.1, ih h.2]

theorem findRoomIn_spec (times : String → Nat) (rooms : List Room)
    (sched : List (List Nat)) (s : Session) (size : Nat) :
    ∀ (order : List Nat) (r : Nat),
      findRoomIn times rooms sched s size order = some r →
      r ∈ order ∧ size ≤ (getRoom rooms r).capacity ∧
        ∀ t ∈ occupiedSlots times s, t ∉ sched.getD r [] := by
  intro order
  induction order with
  | nil => intro r h; simp [findRoomIn] at h
  | cons r0 rest ih =>
      intro r h
      simp only [findRoomIn] at h
      by_cases h1 : size > (getRoom rooms r0).capacity
      · simp only [h1, if_true] at h
        obtain ⟨hm, hc, hd⟩ := ih r h
        exact ⟨List.mem_cons_of_mem r0 hm, hc, hd⟩
      · simp only [h1, if_false] at h
        by_cases h2 : (occupiedSlots times s).any (fun t => decide (t ∈ sched.getD r0 []))
        · simp only [h2, if_true] at h
          obtain ⟨hm, hc, hd⟩ := ih r h
          exact ⟨List.mem_cons_of_mem r0 hm, hc, hd⟩
        · simp only [h2, Bool.false_eq_true, if_false, Option.some.injEq] at h
          subst h
          refine ⟨List.mem_cons_self r0 rest, by omega, ?_⟩
          intro t ht hmem
          exact h2 (List.any_eq_true.mpr ⟨t, ht, by simpa using hmem⟩)

theorem roomOrder_lt (rooms : List Room) (s : Session) (r : Nat)
    (h : r ∈ roomOrder rooms s) : r < rooms.length := by
  simp only [roomOrder, List.mem_append, List.mem_filter, List.mem_range] at h
  rcases h with ⟨h, _⟩ | ⟨h, _⟩ <;> exact h

theorem roomName_inj (rooms : List Room) (hnd : (rooms.map Room.name).Nodup)
    (r1 r2 : Nat) (h1 : r1 < rooms.length) (h2 : r2 < rooms.length)
    (heq : (getRoom rooms r1).name = (getRoom rooms r2).name) : r1 = r2 := by
  have e1 : (rooms.map Room.name).get ⟨r1, by simpa using h1⟩ = (getRoom rooms r1).name := by
    simp [getRoom, List.getD_eq_getElem, h1]
  have e2 : (rooms.map Room.name).get ⟨r2, by simpa using h2⟩ = (getRoom rooms r2).name := by
    simp [getRoom, List.getD_eq_getElem, h2]
  have := List.Nodup.get_inj_iff hnd
    (i := ⟨r1, by simpa using h1⟩) (j := ⟨r2, by simpa using h2⟩)
  have hget : (rooms.map Room.name).get ⟨r1, by simpa using h1⟩ =
      (rooms.map Room.name).get ⟨r2, by simpa using h2⟩ := by
    rw [e1, e2]; exact heq
  simpa using this.mp hget

/-- Per-session facts that survive to the final assignment: an entry exists,
it names a real room, and the capacity check passed. -/
def AsgOK (times : String → Nat) (rooms : List Room) (gs : List (String × Nat))
    (asg : List (String × String)) (s : Session) : Prop :=
  ∃ r, r < rooms.length ∧ lookupA asg s.sess_id = some (getRoom rooms r).name ∧
    gsLookup gs s.group ≤ (getRoom rooms r).capacity

/-- `AsgOK` plus the invariant that the session's slots are marked in its
room's schedule. -/
def PlacedIn (times : String → Nat) (rooms : List Room) (gs : List (String × Nat))
    (sched : List (List Nat)) (asg : List (String × String)) (s : Session) : Prop :=
  ∃ r, r < rooms.length ∧ lookupA asg s.sess_id = some (getRoom rooms r).name ∧
    gsLookup gs s.group ≤ (getRoom rooms r).capacity ∧
    ∀ t ∈ occupiedSlots times s, t ∈ sched.getD r []

/-- Distinct sessions assigned the same room name occupy disjoint slots. -/
def DisjOK (times : String → Nat) (asg : List (String × String))
    (placed : List Session) : Prop :=
  ∀ s1 ∈ placed, ∀ s2 ∈ placed, s1.sess_id ≠ s2.sess_id →
    ∀ rn, lookupA asg s1.sess_id = some rn → lookupA asg s2.sess_id = some rn →
      ∀ t ∈ occupiedSlots times s1, t ∉ occupiedSlots times s2

theorem getD_set_self {α : Type} (l : List (List α)) (r : Nat) (x : List α)
    (h : r < l.length) : (l.set r x).getD r [] = x := by
  simp [List.getD_eq_getElem?_getD, List.getElem?_set_self h]

theorem getD_set_ne {α : Type} (l : List (List α)) (r r2 : Nat) (x : List α)
    (h : r ≠ r2) : (l.set r x).getD r2 [] = l.getD r2 [] := by
  simp [List.getD_eq_getElem?_getD, List.getElem?_set_ne h]

theorem greedyGo_spec (times : String → Nat) (rooms : List Room)
    (gs : List (String × Nat)) (hnames : (rooms.map Room.name).Nodup) :
    ∀ (todo placed : List Session) (sched : List (List Nat))
      (asg out : List (String × String)),
      sched.length = rooms.length →
      asg.map Prod.fst = placed.map Session.sess_id →
      ((placed ++ todo).map Session.sess_id).Nodup →
      (∀ s ∈ placed, PlacedIn times rooms gs sched asg s) →
      DisjOK times asg placed →
      greedyGo times rooms gs todo sched asg = some out →
      (∀ s ∈ placed ++ todo, AsgOK times rooms gs out s) ∧
        DisjOK times out (placed ++ todo) := by
  intro todo
  induction todo with
  | nil =>
      intro placed sched asg out hlen hkeys hnd hplaced hdisj hrun
      simp only [greedyGo, Option.some.injEq] at hrun
      subst hrun
      refine ⟨?_, by simpa using hdisj⟩
      intro s hs
      simp only [List.append_nil] at hs
      obtain ⟨r, hr, hl, hc, _⟩ := hplaced s hs
      exact ⟨r, hr, hl, hc⟩
  | cons s rest ih =>
      intro placed sched asg out hlen hkeys hnd hplaced hdisj hrun
      simp only [greedyGo] at hrun
      cases hfind : findRoomIn times rooms sched s (gsLookup gs s.group) (roomOrder rooms s) with
      | none => rw [hfind] at hrun; cases hrun
      | some r =>
          rw [hfind] at hrun
          obtain ⟨hmem, hcap, hfree⟩ :=
            findRoomIn_spec times rooms sched s (gsLookup gs s.group) _ r hfind
          have hrlt : r < rooms.length := roomOrder_lt rooms s r hmem
          have hfresh : s.sess_id ∉ asg.map Prod.fst := by
            rw [hkeys]
            intro hmem2
            have hnd2 := hnd
            rw [List.map_append] at hnd2
            exact (List.nodup_append.mp hnd2).2.2 hmem2 (by simp)
          have hsid_in : ∀ s3, s3 ∈ placed → s3.sess_id ≠ s.sess_id := by
            intro s3 hs3 heq
            apply hfresh
            rw [hkeys, ← heq]
            exact List.mem_map_of_mem Session.sess_id hs3
          have hupd : updateAssoc asg s.sess_id (getRoom rooms r).name =
              asg ++ [(s.sess_id, (getRoom rooms r).name)] :=
            updateAssoc_fresh asg _ _ hfresh
          have hlook_new : lookupA (updateAssoc asg s.sess_id (getRoom rooms r).name)
              s.sess_id = some (getRoom rooms r).name := by
            rw [hupd]; exact lookupA_append_fresh asg _ _ hfresh
          have hlook_old : ∀ k v, lookupA asg k = some v →
              lookupA (updateAssoc asg s.sess_id (getRoom rooms r).name) k = some v := by
            intro k v hv
            rw [hupd]
            exact lookupA_append_left asg _ k v hv
          have hset_self : (sched.set r (occupiedSlots times s ++ sched.getD r [])).getD r [] =
              occupiedSlots times s ++ sched.getD r [] :=
            getD_set_self sched r _ (by omega)
          have hgrow : ∀ r2, ∀ t, t ∈ sched.getD r2 [] →
              t ∈ (sched.set r (occupiedSlots times s ++ sched.getD r [])).getD r2 [] := by
            intro r2 t ht
            by_cases hrr : r = r2
            · subst hrr
              rw [hset_self]
              exact List.mem_append_right _ ht
            · rw [getD_set_ne sched r r2 _ hrr]
              exact ht
          have hstep := ih (placed ++ [s])
            (sched.set r (occupiedSlots times s ++ sched.getD r []))
            (updateAssoc asg s.sess_id (getRoom rooms r).name) out
            (by simpa using hlen)
            (by rw [hupd]; simp [hkeys])
            (by simpa [List.append_assoc] using hnd)
            ?_ ?_ hrun
          · constructor
            · intro t ht
              apply hstep.1
              simpa [List.append_assoc] using ht
            · intro s1 hs1 s2 hs2 hne rn h1 h2
              refine hstep.2 s1 ?_ s2 ?_ hne rn h1 h2
              · simpa [List.append_assoc] using hs1
              · simpa [List.append_assoc] using hs2
          · -- PlacedIn is preserved and established for the new session
            intro s1 hs1
            rw [List.mem_append, List.mem_singleton] at hs1
            rcases hs1 with hs1 | rfl
            · obtain ⟨r1, hr1, hl1, hc1, hin1⟩ := hplaced s1 hs1
              exact ⟨r1, hr1, hlook_old _ _ hl1, hc1,
                fun t ht => hgrow r1 t (hin1 t ht)⟩
            · refine ⟨r, hrlt, hlook_new, hcap, ?_⟩
              intro t ht
              rw [hset_self]
              exact List.mem_append_left _ ht
          · -- DisjOK is preserved and extended to the new session
            intro s1 hs1 s2 hs2 hne rn h1 h2
            rw [List.mem_append, List.mem_singleton] at hs1 hs2
            rcases hs1 with hs1 | rfl <;> rcases hs2 with hs2 | rfl
            · obtain ⟨r1, hr1, hl1, hc1, hin1⟩ := hplaced s1 hs1
              obtain ⟨r2, hr2, hl2, hc2, hin2⟩ := hplaced s2 hs2
              have e1 : some (getRoom rooms r1).name = some rn :=
                (hlook_old _ _ hl1).symm.trans h1
              have e2 : some (getRoom rooms r2).name = some rn :=
                (hlook_old _ _ hl2).symm.trans h2
              exact hdisj s1 hs1 s2 hs2 hne rn (hl1.trans e1) (hl2.trans e2)
            · -- s1 old, s2 new: both resolve to room index r
              obtain ⟨r1, hr1, hl1, hc1, hin1⟩ := hplaced s1 hs1
              have e1 : some (getRoom rooms r1).name = some rn :=
                (hlook_old _ _ hl1).symm.trans h1
              have e2 : some (getRoom rooms r).name = some rn := hlook_new.symm.trans h2
              have hnames_eq : (getRoom rooms r1).name = (getRoom rooms r).name := by
                rw [Option.some.injEq] at e1 e2
                rw [e1, e2]
              have hr1r : r1 = r := roomName_inj rooms hnames r1 r hr1 hrlt hnames_eq
              subst hr1r
              intro t ht hts
              exact hfree t hts (hin1 t ht)
            · -- s1 new, s2 old
              obtain ⟨r2, hr2, hl2, hc2, hin2⟩ := hplaced s2 hs2
              have e2 : some (getRoom rooms r2).name = some rn :=
                (hlook_old _ _ hl2).symm.trans h2
              have e1 : some (getRoom rooms r).name = some rn := hlook_new.symm.trans h1
              have hnames_eq : (getRoom rooms r2).name = (getRoom rooms r).name := by
                rw [Option.some.injEq] at e1 e2
                rw [e1, e2]
              have hr2r : r2 = r := roomName_inj rooms hnames r2 r hr2 hrlt hnames_eq
              subst hr2r
              intro t ht hts
              exact hfree t ht (hin2 t hts)
            · exact absurd rfl hne

/-! ### Facts about `expand_courses` -/

/-- Sessions generated for one `(course, group)` pair. -/
def sessionsFor (c : Course) (g : String) : List Session :=
  if c.consecutive = 1 then (List.range c.weekly_slots).map (lecSession c g)
  else (List.range (c.weekly_slots / c.consecutive)).map (labSession c g)

theorem expandGroups_ok (c : Course) (hk : 1 ≤ c.consecutive)
    (hdvd : c.consecutive ∣ c.weekly_slots) :
    ∀ gl : List String, expandGroups c gl = Except.ok (gl.flatMap (sessionsFor c)) := by
  intro gl
  induction gl with
  | nil => rfl
  | cons g rest ih =>
      by_cases h1 : c.consecutive = 1
      · simp [expandGroups, h1, ih, sessionsFor]
      · have h0 : c.consecutive ≠ 0 := by omega
        have hmod : c.weekly_slots % c.consecutive = 0 := by
          obtain ⟨m, hm⟩ := hdvd
          rw [hm]
          exact Nat.mul_mod_right c.consecutive m
        simp [expandGroups, h1, h0, hmod, ih, sessionsFor]

theorem expand_courses_ok (cs : List Course)
    (h : ∀ c ∈ cs, 1 ≤ c.consecutive ∧ c.consecutive ∣ c.weekly_slots) :
    expand_courses cs =
      Except.ok (cs.flatMap (fun c => (normGroups c).flatMap (sessionsFor c))) := by
  induction cs with
  | nil => rfl
  | cons c rest ih =>
      have hc := h c (List.mem_cons_self c rest)
      have hrest := ih (fun c2 hc2 => h c2 (List.mem_cons_of_mem c hc2))
      simp [expand_courses, expandGroups_ok c hc.1 hc.2, hrest]

theorem expandGroups_error (c : Course) (hk : 1 ≤ c.consecutive) :
    ∀ (gl : List String) (e : String), expandGroups c gl = Except.error e →
      e = valueErrorMsg ∧ gl ≠ [] ∧ ¬(c.consecutive ∣ c.weekly_slots) := by
  intro gl
  induction gl with
  | nil => intro e h; cases h
  | cons g rest ih =>
      intro e h
      by_cases h1 : c.consecutive = 1
      · exfalso
        simp only [expandGroups, h1, if_true] at h
        cases hrec : expandGroups c rest with
        | error e2 =>
            obtain ⟨_, _, hnd⟩ := ih e2 hrec
            exact hnd (h1 ▸ Dvd.intro c.weekly_slots (by ring))
        | ok rest2 => rw [hrec] at h; cases h
      · have h0 : c.consecutive ≠ 0 := by omega
        simp only [expandGroups, h1, if_false, h0] at h
        by_cases hmod : c.weekly_slots % c.consecutive ≠ 0
        · rw [if_pos hmod, Except.error.injEq] at h
          refine ⟨h.symm, by simp, ?_⟩
          intro hdvd
          obtain ⟨m, hm⟩ := hdvd
          rw [hm] at hmod
          exact hmod (Nat.mul_mod_right c.consecutive m)
        · exfalso
          rw [if_neg hmod] at h
          cases hrec : expandGroups c rest with
          | error e2 =>
              obtain ⟨_, _, hnd⟩ := ih e2 hrec
              push_neg at hmod
              exact hnd (Nat.dvd_of_mod_eq_zero hmod)
          | ok rest2 => rw [hrec] at h; cases h

theorem expandGroups_error_of_not_dvd (c : Course) (hk : 1 ≤ c.consecutive)
    (g : String) (gl : List String)
    (hnd : ¬(c.consecutive ∣ c.weekly_slots)) :
    expandGroups c (g :: gl) = Except.error valueErrorMsg := by
  have h1 : c.consecutive ≠ 1 := by
    intro h
    exact hnd (h ▸ Dvd.intro c.weekly_slots (by ring))
  have h0 : c.consecutive ≠ 0 := by omega
  have hmod : c.weekly_slots % c.consecutive ≠ 0 := by
    intro h
    exact hnd (Nat.dvd_of_mod_eq_zero h)
  simp [expandGroups, h1, h0, hmod]

/-- Filter predicate selecting the sessions of a `(course, group)` pair. -/
def pairPred (c : Course) (g : String) (s : Session) : Bool :=
  decide (s.course_id = c.id ∧ s.group = g)

theorem sessionsFor_course_id (c : Course) (g : String) :
    ∀ s ∈ sessionsFor c g, s.course_id = c.id ∧ s.group = g := by
  intro s hs
  simp only [sessionsFor] at hs
  by_cases h1 : c.consecutive = 1 <;> simp only [h1, if_true, if_false] at hs
  · obtain ⟨i, hi, rfl⟩ := List.mem_map.mp hs
    simp [lecSession]
  · obtain ⟨i, hi, rfl⟩ := List.mem_map.mp hs
    simp [labSession]

theorem sessionsFor_length_field (c : Course) (g : String) :
    ∀ s ∈ sessionsFor c g, s.length = if c.consecutive = 1 then 1 else c.consecutive := by
  intro s hs
  simp only [sessionsFor] at hs
  by_cases h1 : c.consecutive = 1 <;> simp only [h1, if_true, if_false] at hs ⊢
  · obtain ⟨i, hi, rfl⟩ := List.mem_map.mp hs
    simp [lecSession]
  · obtain ⟨i, hi, rfl⟩ := List.mem_map.mp hs
    simp [labSession]

theorem sessionsFor_count (c : Course) (g : String) :
    (sessionsFor c g).length =
      if c.consecutive = 1 then c.weekly_slots else c.weekly_slots / c.consecutive := by
  by_cases h1 : c.consecutive = 1 <;> simp [sessionsFor, h1]

theorem filter_sessionsFor_self (c : Course) (g : String) :
    (sessionsFor c g).filter (pairPred c g) = sessionsFor c g := by
  rw [List.filter_eq_self]
  intro s hs
  obtain ⟨h1, h2⟩ := sessionsFor_course_id c g s hs
  simp [pairPred, h1, h2]

theorem filter_sessionsFor_other (c c2 : Course) (g g2 : String)
    (h : c2.id ≠ c.id ∨ g2 ≠ g) :
    (sessionsFor c2 g2).filter (pairPred c g) = [] := by
  rw [List.filter_eq_nil_iff]
  intro s hs
  obtain ⟨h1, h2⟩ := sessionsFor_course_id c2 g2 s hs
  simp only [pairPred, decide_eq_true_eq]
  rintro ⟨ha, hb⟩
  rcases h with h | h
  · exact h (h1 ▸ ha)
  · exact h (h2 ▸ hb)

theorem filter_groups_flatMap (c : Course) (g : String) (gl : List String)
    (hg : g ∈ gl) (hnd : gl.Nodup) :
    (gl.flatMap (sessionsFor c)).filter (pairPred c g) = sessionsFor c g := by
  induction gl with
  | nil => cases hg
  | cons g0 rest ih =>
      rw [List.flatMap_cons, List.filter_append]
      rw [List.mem_cons] at hg
      obtain ⟨hnotin, hndrest⟩ := List.nodup_cons.mp hnd
      rcases hg with rfl | hg
      · rw [filter_sessionsFor_self]
        have : (rest.flatMap (sessionsFor c)).filter (pairPred c g) = [] := by
          rw [List.filter_flatMap, List.flatMap_eq_nil_iff]
          intro g2 hg2
          exact filter_sessionsFor_other c c g g2 (Or.inr (fun hh => hnotin (hh ▸ hg2)))
        rw [this, List.append_nil]
      · have hne : g0 ≠ g := fun hh => hnotin (hh ▸ hg)
        rw [filter_sessionsFor_other c c g g0 (Or.inr hne), List.nil_append]
        exact ih hg hndrest

theorem filter_courses_flatMap (cs : List Course) (c : Course) (g : String)
    (hc : c ∈ cs) (hids : (cs.map Course.id).Nodup)
    (hg : g ∈ normGroups c) (hgnd : (normGroups c).Nodup) :
    ((cs.flatMap (fun c2 => (normGroups c2).flatMap (sessionsFor c2))).filter
      (pairPred c g)) = sessionsFor c g := by
  induction cs with
  | nil => cases hc
  | cons c0 rest ih =>
      rw [List.flatMap_cons, List.filter_append]
      rw [List.mem_cons] at hc
      have hnd0 : c0.id ∉ rest.map Course.id :=
        (List.nodup_cons.mp (by simpa using hids)).1
      have hidrest : (rest.map Course.id).Nodup :=
        (List.nodup_cons.mp (by simpa using hids)).2
      rcases hc with rfl | hc
      · rw [filter_groups_flatMap c g (normGroups c) hg hgnd]
        have : (rest.flatMap (fun c2 => (normGroups c2).flatMap (sessionsFor c2))).filter
            (pairPred c g) = [] := by
          rw [List.filter_flatMap, List.flatMap_eq_nil_iff]
          intro c2 hc2
          rw [List.filter_flatMap, List.flatMap_eq_nil_iff]
          intro g2 hg2
          refine filter_sessionsFor_other c c2 g g2 (Or.inl ?_)
          intro hh
          exact hnd0 (hh ▸ List.mem_map_of_mem Course.id hc2)
        rw [this, List.append_nil]
      · have hne : c0.id ≠ c.id := by
          intro hh
          exact hnd0 (hh ▸ List.mem_map_of_mem Course.id hc)
        have hhead : ((normGroups c0).flatMap (sessionsFor c0)).filter (pairPred c g) = [] := by
          rw [List.filter_flatMap, List.flatMap_eq_nil_iff]
          intro g2 hg2
          exact filter_sessionsFor_other c c0 g g2 (Or.inl hne)
        rw [hhead, List.nil_append]
        exact ih hc hidrest

/-- Whether a course's sessions use the `lab{i}` id branch. -/
def labFlag (c : Course) : Bool := !decide (c.consecutive = 1)

theorem map_sessId_sessionsFor (c : Course) (g : String) :
    (sessionsFor c g).map Session.sess_id =
      (List.range (if c.consecutive = 1 then c.weekly_slots
        else c.weekly_slots / c.consecutive)).map
          (fun i => sessIdFmt (labFlag c) c.id g i) := by
  by_cases h1 : c.consecutive = 1 <;>
    simp [sessionsFor, h1, labFlag, sessIdFmt, lecSession, labSession,
      Function.comp_def]

theorem expand_ids_nodup (cs : List Course)
    (hu : ∀ c ∈ cs, '_' ∉ c.id.data ∧ (normGroups c).Nodup ∧
      ∀ g ∈ normGroups c, '_' ∉ g.data)
    (hids : (cs.map Course.id).Nodup) :
    ((cs.flatMap (fun c => (normGroups c).flatMap (sessionsFor c))).map
      Session.sess_id).Nodup := by
  rw [List.map_flatMap]
  rw [List.nodup_flatMap]
  constructor
  · -- each course's id list is Nodup
    intro c hc
    obtain ⟨hcid, hgnd, hgu⟩ := hu c hc
    rw [List.map_flatMap, List.nodup_flatMap]
    constructor
    · intro g hg
      rw [map_sessId_sessionsFor]
      refine List.Nodup.map_on ?_ (List.nodup_range _)
      intro i1 _ i2 _ heq
      exact (sessIdFmt_injective (labFlag c) (labFlag c) c.id g c.id g i1 i2
        hcid (hgu g hg) hcid (hgu g hg) heq).2.2.2
    · refine List.Pairwise.imp_of_mem ?_ hgnd
      intro g1 g2 hg1 hg2 hne
      intro x hx1 hx2
      simp only [Function.onFun] at hx1 hx2
      simp only [map_sessId_sessionsFor] at hx1 hx2
      obtain ⟨i1, _, rfl⟩ := List.mem_map.mp hx1
      obtain ⟨i2, _, heq⟩ := List.mem_map.mp hx2
      exact hne (sessIdFmt_injective (labFlag c) (labFlag c) c.id g1 c.id g2 i1 i2
        hcid (hgu g1 hg1) hcid (hgu g2 hg2) heq.symm).2.2.1
  · -- courses with distinct ids give disjoint id lists
    have hpw : cs.Pairwise (fun c1 c2 => c1.id ≠ c2.id) := by
      exact List.pairwise_map.mp hids
    refine List.Pairwise.imp_of_mem ?_ hpw
    intro c1 c2 hc1 hc2 hne
    intro x hx1 hx2
    obtain ⟨hcid1, _, hgu1⟩ := hu c1 hc1
    obtain ⟨hcid2, _, hgu2⟩ := hu c2 hc2
    simp only [Function.onFun] at hx1 hx2
    rw [List.map_flatMap] at hx1 hx2
    obtain ⟨g1, hg1, hx1b⟩ := List.mem_flatMap.mp hx1
    obtain ⟨g2, hg2, hx2b⟩ := List.mem_flatMap.mp hx2
    rw [map_sessId_sessionsFor] at hx1b hx2b
    obtain ⟨i1, _, rfl⟩ := List.mem_map.mp hx1b
    obtain ⟨i2, _, heq⟩ := List.mem_map.mp hx2b
    exact hne (sessIdFmt_injective (labFlag c2) (labFlag c1) c2.id g2 c1.id g1 i2 i1
      hcid2 (hgu2 g2 hg2) hcid1 (hgu1 g1 hg1) heq).2.1.symm

/-! ## Claim C1: greedy room assignment guarantees -/

/-- **C1** (amended): for every input with pairwise-distinct session ids and
pairwise-distinct room names on which `greedy_room_assignment` returns a
non-`None` assignment, every session receives a room whose capacity is at
least the session's group size (0 when absent from `group_sizes`), and any
two distinct sessions assigned the same room occupy disjoint slot intervals
`[start, start+length)`. -/
theorem greedy_room_assignment_correct
    (times : String → Nat) (sessions : List Session) (rooms : List Room)
    (group_sizes : List (String × Nat)) (A : List (String × String))
    (hsids : (sessions.map Session.sess_id).Nodup)
    (hnames : (rooms.map Room.name).Nodup)
    (hrun : greedy_room_assignment times sessions rooms group_sizes = some A) :
    (∀ s ∈ sessions, ∃ r, r < rooms.length ∧
      lookupA A s.sess_id = some (getRoom rooms r).name ∧
      gsLookup group_sizes s.group ≤ (getRoom rooms r).capacity) ∧
    (∀ s1 ∈ sessions, ∀ s2 ∈ sessions, s1.sess_id ≠ s2.sess_id →
      ∀ rn, lookupA A s1.sess_id = some rn → lookupA A s2.sess_id = some rn →
        ∀ t ∈ occupiedSlots times s1, t ∉ occupiedSlots times s2) := by
  have hperm : List.Perm (greedySorted group_sizes sessions) sessions :=
    List.perm_insertionSort (greedyLE group_sizes) sessions
  have hndsort : (([] ++ greedySorted group_sizes sessions).map Session.sess_id).Nodup := by
    rw [List.nil_append]
    exact (List.Perm.nodup_iff (List.Perm.map Session.sess_id hperm)).mpr hsids
  have hspec := greedyGo_spec times rooms group_sizes hnames
    (greedySorted group_sizes sessions) [] (List.replicate rooms.length []) [] A
    (by simp) (by simp) hndsort (by intro s hs; cases hs) (by intro s1 hs1; cases hs1)
    (by simpa [greedy_room_assignment] using hrun)
  constructor
  · intro s hs
    have hmem : s ∈ [] ++ greedySorted group_sizes sessions := by
      rw [List.nil_append]
      exact (List.Perm.mem_iff hperm).mpr hs
    obtain ⟨r, hr, hl, hc⟩ := hspec.1 s hmem
    exact ⟨r, hr, hl, hc⟩
  · intro s1 hs1 s2 hs2 hne rn h1 h2
    have hm1 : s1 ∈ [] ++ greedySorted group_sizes sessions := by
      rw [List.nil_append]; exact (List.Perm.mem_iff hperm).mpr hs1
    have hm2 : s2 ∈ [] ++ greedySorted group_sizes sessions := by
      rw [List.nil_append]; exact (List.Perm.mem_iff hperm).mpr hs2
    exact hspec.2 s1 hm1 s2 hm2 hne rn h1 h2

/-- Session used by the C1 counterexample. -/
def cxS1 : Session :=
  { sess_id := "a", course_id := "C", name := "X", faculty := "F1",
    group := "G1", length := 1 }

/-- Second session used by the C1 counterexample. -/
def cxS2 : Session :=
  { sess_id := "b", course_id := "C", name := "X", faculty := "F2",
    group := "G2", length := 1 }

/-- **C1** counterexample: with two rooms that share the name `"R"`, the
greedy pass places two simultaneous sessions in the two distinct room
objects, but the returned name-keyed assignment maps both sessions to the
same room `"R"` with overlapping slot intervals, so the claim as stated
(over every input) fails. -/
theorem greedy_room_assignment_shared_name_overlap :
    greedy_room_assignment (fun _ => 0) [cxS1, cxS2]
        [{ name := "R", capacity := 10 }, { name := "R", capacity := 10 }] [] =
      some [("a", "R"), ("b", "R")] ∧
    cxS1.sess_id ≠ cxS2.sess_id ∧
    lookupA [("a", "R"), ("b", "R")] cxS1.sess_id = some "R" ∧
    lookupA [("a", "R"), ("b", "R")] cxS2.sess_id = some "R" ∧
    0 ∈ occupiedSlots (fun _ => 0) cxS1 ∧ 0 ∈ occupiedSlots (fun _ => 0) cxS2 := by
  refine ⟨by decide, by decide, by decide, by decide, by decide, by decide⟩

/-- **C1** witness: a concrete successful run satisfying the hypotheses of
the amended theorem. -/
theorem greedy_room_assignment_correct_witness :
    (∀ s ∈ [cxS1], ∃ r, r < ([{ name := "R1", capacity := 10 }] : List Room).length ∧
      lookupA [("a", "R1")] s.sess_id =
        some (getRoom [{ name := "R1", capacity := 10 }] r).name ∧
      gsLookup [] s.group ≤ (getRoom [{ name := "R1", capacity := 10 }] r).capacity) ∧
    (∀ s1 ∈ [cxS1], ∀ s2 ∈ [cxS1], s1.sess_id ≠ s2.sess_id →
      ∀ rn, lookupA [("a", "R1")] s1.sess_id = some rn →
        lookupA [("a", "R1")] s2.sess_id = some rn →
        ∀ t ∈ occupiedSlots (fun _ => 0) s1, t ∉ occupiedSlots (fun _ => 0) s2) :=
  greedy_room_assignment_correct (fun _ => 0) [cxS1]
    [{ name := "R1", capacity := 10 }] [] [("a", "R1")]
    (by decide) (by decide) (by decide)

/-! ## Claims C4 and C5: session expansion -/

/-- **C4** (amended): for course lists whose courses have `consecutive ≥ 1`
dividing `weekly_slots`, pairwise-distinct course ids, per-course
duplicate-free group lists, and underscore-free course and group
identifiers, `expand_courses` succeeds and yields, for each
`(course, group)` pair, exactly `n` sessions of length 1 when `k = 1` and
exactly `n/k` sessions of length `k` when `k > 1`, in a deterministic order
with the session id of the `i`-th such session equal to the fixed format
string of `(course id, group, i)`, and all session ids pairwise distinct. -/
theorem expand_courses_spec (cs : List Course)
    (hk : ∀ c ∈ cs, 1 ≤ c.consecutive ∧ c.consecutive ∣ c.weekly_slots)
    (hu : ∀ c ∈ cs, '_' ∉ c.id.data ∧ (normGroups c).Nodup ∧
      ∀ g ∈ normGroups c, '_' ∉ g.data)
    (hids : (cs.map Course.id).Nodup) :
    ∃ ss, expand_courses cs = Except.ok ss ∧
      (∀ c ∈ cs, ∀ g ∈ normGroups c,
        (ss.filter (pairPred c g)).length =
          (if c.consecutive = 1 then c.weekly_slots
            else c.weekly_slots / c.consecutive) ∧
        (∀ s ∈ ss.filter (pairPred c g),
          s.length = if c.consecutive = 1 then 1 else c.consecutive) ∧
        (ss.filter (pairPred c g)).map Session.sess_id =
          (List.range (if c.consecutive = 1 then c.weekly_slots
            else c.weekly_slots / c.consecutive)).map
              (fun i => sessIdFmt (labFlag c) c.id g i)) ∧
      (ss.map Session.sess_id).Nodup := by
  refine ⟨cs.flatMap (fun c => (normGroups c).flatMap (sessionsFor c)),
    expand_courses_ok cs hk, ?_, expand_ids_nodup cs hu hids⟩
  intro c hc g hg
  have hfilter := filter_courses_flatMap cs c g hc hids hg (hu c hc).2.1
  rw [hfilter]
  exact ⟨sessionsFor_count c g, sessionsFor_length_field c g,
    map_sessId_sessionsFor c g⟩

/-- First course of the C4 counterexample: id `"A"`, single group `"B_C"`. -/
def cxCourseA : Course :=
  { id := "A", name := "N", faculty := "F", group := GroupSpec.single "B_C",
    weekly_slots := 1, consecutive := 1 }

/-- Second course of the C4 counterexample: id `"A_B"`, single group `"C"`. -/
def cxCourseB : Course :=
  { id := "A_B", name := "N", faculty := "F", group := GroupSpec.single "C",
    weekly_slots := 1, consecutive := 1 }

/-- **C4** counterexample: the distinct `(course id, group, index)` triples
`("A", "B_C", 0)` and `("A_B", "C", 0)` produce the same session id
`"A_B_C_s0"`, because the id format joins the fields with underscores that
may also occur inside the fields; the claim's distinctness conjunct fails. -/
theorem expand_courses_duplicate_ids :
    (expand_courses [cxCourseA, cxCourseB]).toOption.map
      (fun ss => ss.map Session.sess_id) = some ["A_B_C_s0", "A_B_C_s0"] ∧
    cxCourseA.id ≠ cxCourseB.id ∧
    ¬ (["A_B_C_s0", "A_B_C_s0"] : List String).Nodup := by
  exact ⟨by decide, by decide, by decide⟩

/-- Course used by the C4 witness: two groups, `n = 4`, `k = 2`. -/
def cxCourseW : Course :=
  { id := "A", name := "Lab", faculty := "F", group := GroupSpec.multi ["G1", "G2"],
    weekly_slots := 4, consecutive := 2 }

/-- **C4** witness: the amended theorem applied to one concrete course with
two groups, `n = 4`, `k = 2`. -/
theorem expand_courses_spec_witness :
    ∃ ss, expand_courses [cxCourseW] = Except.ok ss ∧
      (∀ c ∈ [cxCourseW], ∀ g ∈ normGroups c,
        (ss.filter (pairPred c g)).length =
          (if c.consecutive = 1 then c.weekly_slots
            else c.weekly_slots / c.consecutive) ∧
        (∀ s ∈ ss.filter (pairPred c g),
          s.length = if c.consecutive = 1 then 1 else c.consecutive) ∧
        (ss.filter (pairPred c g)).map Session.sess_id =
          (List.range (if c.consecutive = 1 then c.weekly_slots
            else c.weekly_slots / c.consecutive)).map
              (fun i => sessIdFmt (labFlag c) c.id g i)) ∧
      (ss.map Session.sess_id).Nodup :=
  expand_courses_spec [cxCourseW] (by decide) (by decide) (by decide)

/-- **C5** (amended): for course lists whose courses all have
`consecutive ≥ 1` (the data-model invariant), `expand_courses` raises the
invalid-input `ValueError` iff some course with a nonempty normalized group
list has `weekly_slots` not divisible by `consecutive`; when every course's
`weekly_slots` is divisible by its `consecutive`, it returns normally. -/
theorem expand_courses_error_iff (cs : List Course)
    (hk : ∀ c ∈ cs, 1 ≤ c.consecutive) :
    (expand_courses cs = Except.error valueErrorMsg ↔
      ∃ c ∈ cs, normGroups c ≠ [] ∧ ¬(c.consecutive ∣ c.weekly_slots)) ∧
    ((∀ c ∈ cs, c.consecutive ∣ c.weekly_slots) →
      ∃ ss, expand_courses cs = Except.ok ss) := by
  constructor
  · induction cs with
    | nil => simp [expand_courses]
    | cons c0 rest ih =>
        have hk0 := hk c0 (List.mem_cons_self c0 rest)
        have ihr := ih (fun c hc => hk c (List.mem_cons_of_mem c0 hc))
        constructor
        · intro h
          simp only [expand_courses] at h
          cases hg : expandGroups c0 (normGroups c0) with
          | error e =>
              obtain ⟨_, hne, hnd⟩ := expandGroups_error c0 hk0 (normGroups c0) e hg
              exact ⟨c0, List.mem_cons_self c0 rest, hne, hnd⟩
          | ok ss =>
              rw [hg] at h
              cases hrest : expand_courses rest with
              | error e2 =>
                  rw [hrest] at h
                  rw [Except.error.injEq] at h
                  obtain ⟨c, hc, hprop⟩ := ihr.mp (by rw [hrest, h])
                  exact ⟨c, List.mem_cons_of_mem c0 hc, hprop⟩
              | ok rest2 => rw [hrest] at h; cases h
        · rintro ⟨c, hc, hne, hnd⟩
          rw [List.mem_cons] at hc
          rcases hc with rfl | hc
          · cases hgl : normGroups c with
            | nil => exact absurd hgl hne
            | cons g gl =>
                have herr := expandGroups_error_of_not_dvd c hk0 g gl hnd
                simp only [expand_courses, hgl, herr]
          · simp only [expand_courses]
            cases hg : expandGroups c0 (normGroups c0) with
            | error e =>
                obtain ⟨he, _, _⟩ := expandGroups_error c0 hk0 (normGroups c0) e hg
                rw [he]
            | ok ss =>
                have hres : expand_courses rest = Except.error valueErrorMsg :=
                  ihr.mpr ⟨c, hc, hne, hnd⟩
                rw [hres]
  · intro hdvd
    exact ⟨_, expand_courses_ok cs (fun c hc => ⟨hk c hc, hdvd c hc⟩)⟩

/-- Course with an empty group list and non-divisible `n, k`, for the C5
counterexample. -/
def cxCourseE : Course :=
  { id := "C1", name := "N", faculty := "F", group := GroupSpec.multi [],
    weekly_slots := 3, consecutive := 2 }

/-- **C5** counterexample: a course with `weekly_slots = 3`,
`consecutive = 2` but an empty group list makes `expand_courses` return
normally even though `weekly_slots` is not divisible by `consecutive` — the
divisibility check sits inside the per-group loop, so the claimed "if and
only if" fails. -/
theorem expand_courses_no_raise_on_empty_groups :
    expand_courses [cxCourseE] = Except.ok [] ∧
    cxCourseE.weekly_slots = 3 ∧ cxCourseE.consecutive = 2 ∧
    ¬(cxCourseE.consecutive ∣ cxCourseE.weekly_slots) := by
  exact ⟨rfl, rfl, rfl, by decide⟩

/-- Course with one group and non-divisible `n, k`, for the C5 witness. -/
def cxCourseV : Course :=
  { id := "C1", name := "N", faculty := "F", group := GroupSpec.single "G",
    weekly_slots := 3, consecutive := 2 }

/-- **C5** witness: the amended iff evaluated on a concrete offending
input (`n = 3`, `k = 2`, one group). -/
theorem expand_courses_error_iff_witness :
    (expand_courses [cxCourseV] = Except.error valueErrorMsg ↔
      ∃ c ∈ [cxCourseV], normGroups c ≠ [] ∧ ¬(c.consecutive ∣ c.weekly_slots)) ∧
    ((∀ c ∈ [cxCourseV], c.consecutive ∣ c.weekly_slots) →
      ∃ ss, expand_courses [cxCourseV] = Except.ok ss) :=
  expand_courses_error_iff [cxCourseV] (by decide)

/-! ## Clash detection (`utils/clashes.py`, `detect_clashes`)

The function makes one pass over the schedule, appending occupancy entries
into per-resource `defaultdict(list)` maps and a per-(type, slot) counter,
then emits the keys whose buckets exceed the thresholds.  Each map is built
by a fold over the per-entry append operations in program order, which is
exactly `buildBuckets`/`buildCnts` of the flattened operation list. -/

/-- One value of the schedule mapping: `{start, length, room, meta}`. -/
structure SchedInfo where
  start : Nat
  length : Nat
  room : Option String
  meta : Session
deriving DecidableEq

/-- `meta["groups"] if "groups" in meta and meta["groups"] else [meta["group"]]`
(a present-but-empty list is falsy and falls back to the single group). -/
def effGroups (meta : Session) : List String :=
  match meta.groups with
  | some (g :: gs) => g :: gs
  | _ => [meta.group]

/-- `'lab' if 'lab' in nl or 'project' in nl else 'elective' if 'elective'
in nl else 'lecture'`. -/
def sessType (name : String) : String :=
  if containsLab (lowerData name) || containsProject (lowerData name) then "lab"
  else if containsElective (lowerData name) then "elective"
  else "lecture"

/-- Faculty-occupancy appends of one schedule entry. -/
def facOpsOf (e : String × SchedInfo) : List ((String × Nat) × String) :=
  (List.range e.2.length).map (fun off => ((e.2.meta.faculty, e.2.start + off), e.1))

/-- Faculty-occupancy appends, in program order. -/
def facOps (schedule : List (String × SchedInfo)) : List ((String × Nat) × String) :=
  schedule.flatMap facOpsOf

/-- Group-occupancy appends of one schedule entry (one per offset and
effective group). -/
def grpOpsOf (e : String × SchedInfo) : List ((String × Nat) × String) :=
  (List.range e.2.length).flatMap
    (fun off => (effGroups e.2.meta).map (fun g => ((g, e.2.start + off), e.1)))

/-- Group-occupancy appends, in program order. -/
def grpOps (schedule : List (String × SchedInfo)) : List ((String × Nat) × String) :=
  schedule.flatMap grpOpsOf

/-- Room-occupancy appends of one schedule entry (only when `room` is
truthy). -/
def roomOpsOf (e : String × SchedInfo) : List ((String × Nat) × String) :=
  match e.2.room with
  | some rn =>
      if rn = "" then []
      else (List.range e.2.length).map (fun off => ((rn, e.2.start + off), e.1))
  | none => []

/-- Room-occupancy appends, in program order. -/
def roomOps (schedule : List (String × SchedInfo)) : List ((String × Nat) × String) :=
  schedule.flatMap roomOpsOf

/-- Session-type counter increments of one schedule entry. -/
def typeOpsOf (e : String × SchedInfo) : List ((String × Nat) × Nat) :=
  (List.range e.2.length).map (fun off => ((sessType e.2.meta.name, e.2.start + off), 1))

/-- Session-type counter increments, in program order. -/
def typeOps (schedule : List (String × SchedInfo)) : List ((String × Nat) × Nat) :=
  schedule.flatMap typeOpsOf

/-- `room_map = {r['name']: r for r in rooms}` (later entries overwrite) and
`room_map.get(room, {}).get('capacity', 0)`. -/
def roomMapCap (rooms : List Room) (rn : String) : Nat :=
  match rooms.reverse.find? (fun r => decide (r.name = rn)) with
  | some r => r.capacity
  | none => 0

/-- One entry of the heterogeneous `clashes['room_capacity']` list. -/
inductive CapEntry where
  | cap (sid g room : String) (size capV : Nat)
  | avail (sessTy : String) (slot count available : Nat)
deriving DecidableEq

/-- Per-session capacity violations appended during the main loop. -/
def capViolations (schedule : List (String × SchedInfo)) (rooms : List Room)
    (gs : List (String × Nat)) : List CapEntry :=
  schedule.filterMap (fun e =>
    match e.2.room with
    | some rn =>
        if rn = "" ∨ gs = [] then none
        else
          if gsLookup gs e.2.meta.group > roomMapCap rooms rn then
            some (CapEntry.cap e.1 e.2.meta.group rn (gsLookup gs e.2.meta.group)
              (roomMapCap rooms rn))
          else none
    | none => none)

/-- `lab_available`: rooms whose lowered name contains `"lab"`. -/
def labAvailable (rooms : List Room) : Nat :=
  (rooms.filter (fun r => hasLab r.name)).length

/-- The three availability thresholds checked against the type counter. -/
def typeEntries (schedule : List (String × SchedInfo)) (rooms : List Room) :
    List CapEntry :=
  (buildCnts (typeOps schedule)).filterMap (fun p =>
    if p.1.1 = "lab" then
      (if p.2 > labAvailable rooms then
        some (CapEntry.avail p.1.1 p.1.2 p.2 (labAvailable rooms)) else none)
    else if p.1.1 = "lecture" then
      (if p.2 > rooms.length - labAvailable rooms then
        some (CapEntry.avail p.1.1 p.1.2 p.2 (rooms.length - labAvailable rooms)) else none)
    else if p.1.1 = "elective" then
      (if p.2 > rooms.length then
        some (CapEntry.avail p.1.1 p.1.2 p.2 rooms.length) else none)
    else none)

/-- Keys whose occupancy bucket holds more than one session. -/
def clashList (ops : List ((String × Nat) × String)) :
    List ((String × Nat) × List String) :=
  (buildBuckets ops).filterMap (fun p => if p.2.length > 1 then some p else none)

/-- The four clash lists returned by `detect_clashes`. -/
structure Clashes where
  faculty : List ((String × Nat) × List String)
  group : List ((String × Nat) × List String)
  room : List ((String × Nat) × List String)
  room_capacity : List CapEntry
deriving DecidableEq

/-- `detect_clashes(schedule, slots_per_day, rooms, group_sizes)`; the
`slots_per_day` argument is accepted and unused, exactly as in the source. -/
def detect_clashes (schedule : List (String × SchedInfo)) (slots_per_day : Nat)
    (rooms : List Room) (group_sizes : List (String × Nat)) : Clashes :=
  { faculty := clashList (facOps schedule)
    group := clashList (grpOps schedule)
    room := clashList (roomOps schedule)
    room_capacity :=
      capViolations schedule rooms group_sizes ++ typeEntries schedule rooms }

/-! ### Counting machinery for emptiness of the clash lists -/

theorem countP_le_one_of_pairwise {α : Type} (l : List α) (p : α → Bool)
    (h : l.Pairwise (fun a b => ¬(p a = true ∧ p b = true))) :
    l.countP p ≤ 1 := by
  induction l with
  | nil => simp
  | cons a rest ih =>
      obtain ⟨hhead, htail⟩ := List.pairwise_cons.mp h
      by_cases hpa : p a
      · rw [List.countP_cons_of_pos p rest hpa]
        have hz : rest.countP p = 0 := by
          rw [List.countP_eq_zero]
          intro b hb hpb
          exact hhead b hb ⟨hpa, hpb⟩
        omega
      · rw [List.countP_cons_of_neg p rest hpa]
        exact ih htail

theorem countP_flatMap {α β : Type} (l : List α) (f : α → List β) (p : β → Bool) :
    (l.flatMap f).countP p = (l.map (fun a => (f a).countP p)).sum := by
  induction l with
  | nil => simp
  | cons a rest ih => simp [List.flatMap_cons, List.countP_append, ih]

theorem mapSum_le_one {α : Type} (l : List α) (f : α → Nat)
    (h1 : ∀ a ∈ l, f a ≤ 1)
    (h2 : l.Pairwise (fun a b => f a = 0 ∨ f b = 0)) :
    (l.map f).sum ≤ 1 := by
  induction l with
  | nil => simp
  | cons a rest ih =>
      obtain ⟨hhead, htail⟩ := List.pairwise_cons.mp h2
      by_cases hz : f a = 0
      · simp only [List.map_cons, List.sum_cons, hz, Nat.zero_add]
        exact ih (fun b hb => h1 b (List.mem_cons_of_mem a hb)) htail
      · have hrest : (rest.map f).sum = 0 := by
          rw [List.sum_eq_zero_iff]
          intro n hn
          obtain ⟨b, hb, rfl⟩ := List.mem_map.mp hn
          rcases hhead b hb with hc | hc
          · exact absurd hc hz
          · exact hc
        simp only [List.map_cons, List.sum_cons, hrest]
        have := h1 a (List.mem_cons_self a rest)
        omega

theorem clashList_eq_nil (ops : List ((String × Nat) × String))
    (h : ∀ k, ops.countP (fun p => p.1 = k) ≤ 1) : clashList ops = [] := by
  rw [clashList, List.filterMap_eq_nil_iff]
  intro p hp
  have hval := value_eq_getBucket_of_nodupKeys (buildBuckets ops)
    (nodupKeys_buildBuckets ops) p hp
  have hlen : p.2.length ≤ 1 := by
    rw [hval, getBucket_buildBuckets, List.length_map,
      ← List.countP_eq_length_filter]
    exact h p.1
  simp only [ite_eq_right_iff]
  intro hgt
  omega

/-- A schedule entry occupies `slot` iff `start ≤ slot < start + length`. -/
def hits (info : SchedInfo) (slot : Nat) : Prop :=
  info.start ≤ slot ∧ slot < info.start + info.length

theorem facOpsOf_countP_le_one (e : String × SchedInfo) (k : String × Nat) :
    (facOpsOf e).countP (fun p => p.1 = k) ≤ 1 := by
  rw [facOpsOf, List.countP_map]
  apply countP_le_one_of_pairwise
  refine List.Pairwise.imp_of_mem ?_ (List.nodup_range e.2.length)
  intro i j _ _ hne
  rintro ⟨hi, hj⟩
  simp only [Function.comp, decide_eq_true_eq] at hi hj
  have hij := hi.trans hj.symm
  rw [Prod.mk.injEq] at hij
  exact hne (by omega)

theorem facOpsOf_countP_pos (e : String × SchedInfo) (k : String × Nat)
    (h : 0 < (facOpsOf e).countP (fun p => p.1 = k)) :
    e.2.meta.faculty = k.1 ∧ hits e.2 k.2 := by
  obtain ⟨op, hmem, hop⟩ := List.countP_pos_iff.mp h
  rw [facOpsOf] at hmem
  obtain ⟨off, hoff, rfl⟩ := List.mem_map.mp hmem
  rw [List.mem_range] at hoff
  simp only [decide_eq_true_eq] at hop
  have h1 : e.2.meta.faculty = k.1 := congrArg Prod.fst hop
  have h2 : e.2.start + off = k.2 := congrArg Prod.snd hop
  refine ⟨h1, ?_⟩
  rw [← h2]
  exact ⟨Nat.le_add_right _ _, by omega⟩

theorem grpOpsOf_countP_le_one (e : String × SchedInfo) (k : String × Nat)
    (hnd : (effGroups e.2.meta).Nodup) :
    (grpOpsOf e).countP (fun p => p.1 = k) ≤ 1 := by
  rw [grpOpsOf, countP_flatMap]
  apply mapSum_le_one
  · intro off _
    rw [List.countP_map]
    apply countP_le_one_of_pairwise
    refine List.Pairwise.imp_of_mem ?_ hnd
    intro g1 g2 _ _ hne
    rintro ⟨h1, h2⟩
    simp only [Function.comp, decide_eq_true_eq] at h1 h2
    have hij := h1.trans h2.symm
    rw [Prod.mk.injEq] at hij
    exact hne hij.1
  · refine List.Pairwise.imp_of_mem ?_ (List.nodup_range e.2.length)
    intro i j _ _ hne
    by_cases hz : ((effGroups e.2.meta).map
        (fun g => ((g, e.2.start + i), e.1))).countP (fun p => p.1 = k) = 0
    · exact Or.inl hz
    · refine Or.inr ?_
      rw [List.countP_eq_zero]
      intro op hmem hop
      obtain ⟨op1, _, h1⟩ := List.countP_pos_iff.mp (Nat.pos_of_ne_zero hz)
      obtain ⟨g2, hg2, rfl⟩ := List.mem_map.mp hmem
      obtain ⟨g1, _, rfl⟩ := List.mem_map.mp (by assumption :
        op1 ∈ (effGroups e.2.meta).map (fun g => ((g, e.2.start + i), e.1)))
      simp only [decide_eq_true_eq] at h1 hop
      have hij := h1.trans hop.symm
      have hsnd : e.2.start + i = e.2.start + j := congrArg Prod.snd hij
      exact hne (by omega)

theorem grpOpsOf_countP_pos (e : String × SchedInfo) (k : String × Nat)
    (h : 0 < (grpOpsOf e).countP (fun p => p.1 = k)) :
    k.1 ∈ effGroups e.2.meta ∧ hits e.2 k.2 := by
  obtain ⟨op, hmem, hop⟩ := List.countP_pos_iff.mp h
  rw [grpOpsOf] at hmem
  obtain ⟨off, hoff, hmem2⟩ := List.mem_flatMap.mp hmem
  rw [List.mem_range] at hoff
  obtain ⟨g, hg, rfl⟩ := List.mem_map.mp hmem2
  simp only [decide_eq_true_eq] at hop
  have h1 : g = k.1 := congrArg (fun q => q.1) hop
  have h2 : e.2.start + off = k.2 := congrArg (fun q => q.2) hop
  refine ⟨h1 ▸ hg, ?_⟩
  rw [← h2]
  exact ⟨Nat.le_add_right _ _, by omega⟩

theorem roomOpsOf_countP_le_one (e : String × SchedInfo) (k : String × Nat) :
    (roomOpsOf e).countP (fun p => p.1 = k) ≤ 1 := by
  rw [roomOpsOf]
  cases hr : e.2.room with
  | none => simp
  | some rn =>
      by_cases he : rn = ""
      · simp [he]
      · simp only [he, if_false]
        rw [List.countP_map]
        apply countP_le_one_of_pairwise
        refine List.Pairwise.imp_of_mem ?_ (List.nodup_range e.2.length)
        intro i j _ _ hne
        rintro ⟨hi, hj⟩
        simp only [Function.comp, decide_eq_true_eq] at hi hj
        have hij := hi.trans hj.symm
        rw [Prod.mk.injEq] at hij
        exact hne (by omega)

theorem roomOpsOf_countP_pos (e : String × SchedInfo) (k : String × Nat)
    (h : 0 < (roomOpsOf e).countP (fun p => p.1 = k)) :
    e.2.room = some k.1 ∧ k.1 ≠ "" ∧ hits e.2 k.2 := by
  rw [roomOpsOf] at h
  cases hr : e.2.room with
  | none => rw [hr] at h; simp at h
  | some rn =>
      rw [hr] at h
      by_cases he : rn = ""
      · simp [he] at h
      · simp only [he, if_false] at h
        obtain ⟨op, hmem, hop⟩ := List.countP_pos_iff.mp h
        obtain ⟨off, hoff, rfl⟩ := List.mem_map.mp hmem
        rw [List.mem_range] at hoff
        simp only [decide_eq_true_eq] at hop
        have h1 : rn = k.1 := congrArg Prod.fst hop
        have h2 : e.2.start + off = k.2 := congrArg Prod.snd hop
        refine ⟨by rw [h1], h1 ▸ he, ?_⟩
        rw [← h2]
        exact ⟨Nat.le_add_right _ _, by omega⟩

theorem facOps_countP_le_one (schedule : List (String × SchedInfo))
    (hfac : schedule.Pairwise (fun e1 e2 => ∀ slot, hits e1.2 slot → hits e2.2 slot →
      e1.2.meta.faculty ≠ e2.2.meta.faculty)) (k : String × Nat) :
    (facOps schedule).countP (fun p => p.1 = k) ≤ 1 := by
  rw [facOps, countP_flatMap]
  apply mapSum_le_one
  · intro e _
    exact facOpsOf_countP_le_one e k
  · refine List.Pairwise.imp_of_mem ?_ hfac
    intro e1 e2 _ _ hr
    by_cases hz : (facOpsOf e1).countP (fun p => p.1 = k) = 0
    · exact Or.inl hz
    · refine Or.inr (by_contra fun hz2 => ?_)
      obtain ⟨hf1, hh1⟩ := facOpsOf_countP_pos e1 k (Nat.pos_of_ne_zero hz)
      obtain ⟨hf2, hh2⟩ := facOpsOf_countP_pos e2 k (Nat.pos_of_ne_zero hz2)
      exact hr k.2 hh1 hh2 (hf1.trans hf2.symm)

theorem grpOps_countP_le_one (schedule : List (String × SchedInfo))
    (hgnd : ∀ e ∈ schedule, (effGroups e.2.meta).Nodup)
    (hgrp : schedule.Pairwise (fun e1 e2 => ∀ slot g, hits e1.2 slot → hits e2.2 slot →
      g ∈ effGroups e1.2.meta → g ∉ effGroups e2.2.meta)) (k : String × Nat) :
    (grpOps schedule).countP (fun p => p.1 = k) ≤ 1 := by
  rw [grpOps, countP_flatMap]
  apply mapSum_le_one
  · intro e he
    exact grpOpsOf_countP_le_one e k (hgnd e he)
  · refine List.Pairwise.imp_of_mem ?_ hgrp
    intro e1 e2 _ _ hr
    by_cases hz : (grpOpsOf e1).countP (fun p => p.1 = k) = 0
    · exact Or.inl hz
    · refine Or.inr (by_contra fun hz2 => ?_)
      obtain ⟨hg1, hh1⟩ := grpOpsOf_countP_pos e1 k (Nat.pos_of_ne_zero hz)
      obtain ⟨hg2, hh2⟩ := grpOpsOf_countP_pos e2 k (Nat.pos_of_ne_zero hz2)
      exact hr k.2 k.1 hh1 hh2 hg1 hg2

theorem roomOps_countP_le_one (schedule : List (String × SchedInfo))
    (hroom : schedule.Pairwise (fun e1 e2 => ∀ slot rn, rn ≠ "" → hits e1.2 slot →
      hits e2.2 slot → e1.2.room = some rn → e2.2.room ≠ some rn)) (k : String × Nat) :
    (roomOps schedule).countP (fun p => p.1 = k) ≤ 1 := by
  rw [roomOps, countP_flatMap]
  apply mapSum_le_one
  · intro e _
    exact roomOpsOf_countP_le_one e k
  · refine List.Pairwise.imp_of_mem ?_ hroom
    intro e1 e2 _ _ hr
    by_cases hz : (roomOpsOf e1).countP (fun p => p.1 = k) = 0
    · exact Or.inl hz
    · refine Or.inr (by_contra fun hz2 => ?_)
      obtain ⟨hr1, hne1, hh1⟩ := roomOpsOf_countP_pos e1 k (Nat.pos_of_ne_zero hz)
      obtain ⟨hr2, _, hh2⟩ := roomOpsOf_countP_pos e2 k (Nat.pos_of_ne_zero hz2)
      exact hr k.2 k.1 hne1 hh1 hh2 hr1 hr2

theorem capViolations_eq_nil (schedule : List (String × SchedInfo))
    (rooms : List Room) (gs : List (String × Nat))
    (hcap : ∀ e ∈ schedule, ∀ rn, e.2.room = some rn →
      gsLookup gs e.2.meta.group ≤ roomMapCap rooms rn) :
    capViolations schedule rooms gs = [] := by
  rw [capViolations, List.filterMap_eq_nil_iff]
  intro e he
  cases hr : e.2.room with
  | none => rfl
  | some rn =>
      by_cases hskip : rn = "" ∨ gs = []
      · simp [hskip]
      · have hle := hcap e he rn hr
        simp only [hskip, if_false, gt_iff_lt, ite_eq_right_iff]
        intro hlt
        omega

theorem sum_map_snd_of_ones {κ : Type} (l : List (κ × Nat))
    (h : ∀ p ∈ l, p.2 = 1) : (l.map Prod.snd).sum = l.length := by
  induction l with
  | nil => simp
  | cons p rest ih =>
      simp only [List.map_cons, List.sum_cons, List.length_cons,
        h p (List.mem_cons_self p rest)]
      rw [ih (fun q hq => h q (List.mem_cons_of_mem p hq))]
      omega

theorem typeCnt_eq_countP (schedule : List (String × SchedInfo)) (k : String × Nat) :
    getCnt (buildCnts (typeOps schedule)) k =
      (typeOps schedule).countP (fun p => p.1 = k) := by
  rw [getCnt_buildCnts]
  have hall : ∀ op ∈ (typeOps schedule).filter (fun p => p.1 = k), op.2 = 1 := by
    intro op hop
    have hmem := List.mem_of_mem_filter hop
    rw [typeOps] at hmem
    obtain ⟨e, _, hmem2⟩ := List.mem_flatMap.mp hmem
    rw [typeOpsOf] at hmem2
    obtain ⟨off, _, rfl⟩ := List.mem_map.mp hmem2
    rfl
  rw [sum_map_snd_of_ones _ hall, List.countP_eq_length_filter]

theorem typeKeys_are_types (schedule : List (String × SchedInfo)) (k : String × Nat)
    (hk : k ∈ (buildCnts (typeOps schedule)).map Prod.fst) :
    k.1 = "lab" ∨ k.1 = "lecture" ∨ k.1 = "elective" := by
  have hmem : k ∈ (typeOps schedule).map Prod.fst := by
    have hsame : ∀ m : List ((String × Nat) × Nat), k ∈ ((typeOps schedule).foldl
        (fun m p => cntAdd m p.1 p.2) m).map Prod.fst →
        k ∈ m.map Prod.fst ∨ k ∈ (typeOps schedule).map Prod.fst := by
      intro m
      induction typeOps schedule generalizing m with
      | nil => intro h; exact Or.inl h
      | cons p rest ih =>
          intro h
          rcases ih (cntAdd m p.1 p.2) h with h2 | h2
          · rw [keys_cntAdd] at h2
            by_cases hm : p.1 ∈ m.map Prod.fst
            · rw [if_pos hm] at h2
              exact Or.inl h2
            · rw [if_neg hm] at h2
              rcases List.mem_append.mp h2 with h3 | h3
              · exact Or.inl h3
              · rw [List.mem_singleton] at h3
                exact Or.inr (by simp [h3])
          · exact Or.inr (by simp [h2])
    rcases hsame [] hk with h | h
    · cases h
    · exact h
  obtain ⟨op, hop, rfl⟩ := List.mem_map.mp hmem
  rw [typeOps] at hop
  obtain ⟨e, _, hmem2⟩ := List.mem_flatMap.mp hop
  rw [typeOpsOf] at hmem2
  obtain ⟨off, _, rfl⟩ := List.mem_map.mp hmem2
  simp only [sessType]
  by_cases h1 : containsLab (lowerData e.2.meta.name) || containsProject (lowerData e.2.meta.name)
  · simp [h1]
  · by_cases h2 : containsElective (lowerData e.2.meta.name)
    · simp [h1, h2]
    · simp [h1, h2]

theorem typeEntries_eq_nil (schedule : List (String × SchedInfo)) (rooms : List Room)
    (htype : ∀ slot,
      (typeOps schedule).countP (fun p => p.1 = ("lab", slot)) ≤ labAvailable rooms ∧
      (typeOps schedule).countP (fun p => p.1 = ("lecture", slot)) ≤
        rooms.length - labAvailable rooms ∧
      (typeOps schedule).countP (fun p => p.1 = ("elective", slot)) ≤ rooms.length) :
    typeEntries schedule rooms = [] := by
  rw [typeEntries, List.filterMap_eq_nil_iff]
  intro p hp
  have hval := cntValue_eq_getCnt_of_nodupKeys (buildCnts (typeOps schedule))
    (nodupKeys_buildCnts (typeOps schedule)) p hp
  have hcnt : p.2 = (typeOps schedule).countP (fun q => q.1 = p.1) := by
    rw [hval, typeCnt_eq_countP]
  have hkey := typeKeys_are_types schedule p.1 (List.mem_map_of_mem Prod.fst hp)
  obtain ⟨ht1, ht2, ht3⟩ := htype p.1.2
  rcases hkey with hk | hk | hk
  · have hle : p.2 ≤ labAvailable rooms := by
      rw [hcnt]
      have hpk : p.1 = ("lab", p.1.2) := by rw [← hk]
      rw [hpk]
      exact ht1
    rw [hk, if_pos rfl, if_neg (by omega)]
  · have hle : p.2 ≤ rooms.length - labAvailable rooms := by
      rw [hcnt]
      have hpk : p.1 = ("lecture", p.1.2) := by rw [← hk]
      rw [hpk]
      exact ht2
    rw [hk, if_neg (by decide), if_pos rfl, if_neg (by omega)]
  · have hle : p.2 ≤ rooms.length := by
      rw [hcnt]
      have hpk : p.1 = ("elective", p.1.2) := by rw [← hk]
      rw [hpk]
      exact ht3
    rw [hk, if_neg (by decide), if_neg (by decide), if_pos rfl, if_neg (by omega)]

/-! ## Claim C2: the clash detector as a test oracle -/

/-- **C2** (amended): on a schedule in which no two distinct sessions share a
(faculty, slot), an (effective-group, slot) or a (nonempty assigned-room,
slot), every session's effective group list is duplicate-free, every session
with an assigned room fits its room's capacity as resolved through the room
map, and for every slot the number of lab / lecture / elective sessions
occupying it does not exceed the number of lab / non-lab / all rooms,
`detect_clashes` returns all-empty lists for every key. -/
theorem detect_clashes_all_empty (schedule : List (String × SchedInfo))
    (slots_per_day : Nat) (rooms : List Room) (gs : List (String × Nat))
    (hgnd : ∀ e ∈ schedule, (effGroups e.2.meta).Nodup)
    (hfac : schedule.Pairwise (fun e1 e2 => ∀ slot, hits e1.2 slot → hits e2.2 slot →
      e1.2.meta.faculty ≠ e2.2.meta.faculty))
    (hgrp : schedule.Pairwise (fun e1 e2 => ∀ slot g, hits e1.2 slot → hits e2.2 slot →
      g ∈ effGroups e1.2.meta → g ∉ effGroups e2.2.meta))
    (hroom : schedule.Pairwise (fun e1 e2 => ∀ slot rn, rn ≠ "" → hits e1.2 slot →
      hits e2.2 slot → e1.2.room = some rn → e2.2.room ≠ some rn))
    (hcap : ∀ e ∈ schedule, ∀ rn, e.2.room = some rn →
      gsLookup gs e.2.meta.group ≤ roomMapCap rooms rn)
    (htype : ∀ slot,
      (typeOps schedule).countP (fun p => p.1 = ("lab", slot)) ≤ labAvailable rooms ∧
      (typeOps schedule).countP (fun p => p.1 = ("lecture", slot)) ≤
        rooms.length - labAvailable rooms ∧
      (typeOps schedule).countP (fun p => p.1 = ("elective", slot)) ≤ rooms.length) :
    detect_clashes schedule slots_per_day rooms gs = ⟨[], [], [], []⟩ := by
  have h1 := clashList_eq_nil (facOps schedule) (facOps_countP_le_one schedule hfac)
  have h2 := clashList_eq_nil (grpOps schedule) (grpOps_countP_le_one schedule hgnd hgrp)
  have h3 := clashList_eq_nil (roomOps schedule) (roomOps_countP_le_one schedule hroom)
  have h4 := capViolations_eq_nil schedule rooms gs hcap
  have h5 := typeEntries_eq_nil schedule rooms htype
  simp [detect_clashes, h1, h2, h3, h4, h5]

/-- Lecture session of the C2 counterexample. -/
def cxMetaL : Session :=
  { sess_id := "a", course_id := "C", name := "Math", faculty := "F",
    group := "G", length := 1 }

/-- Schedule entry of the C2 counterexample: a lecture placed in room
`"Lab1"`. -/
def cxSchedL : List (String × SchedInfo) :=
  [("a", { start := 0, length := 1, room := some "Lab1", meta := cxMetaL })]

/-- Rooms of the C2 counterexample: the single available room is a lab. -/
def cxRoomsL : List Room := [{ name := "Lab1", capacity := 30 }]

/-- **C2** counterexample: a schedule with a single session (hence no pair
of distinct sessions sharing any resource, and no capacity violation — the
claim's premises hold) still yields a non-empty `room_capacity` list,
because `detect_clashes` also flags slots whose per-type session count
exceeds room availability: one lecture session with only a lab room
available. -/
theorem detect_clashes_false_positive :
    (cxSchedL.Pairwise (fun e1 e2 => ∀ slot, hits e1.2 slot → hits e2.2 slot →
      e1.2.meta.faculty ≠ e2.2.meta.faculty)) ∧
    (cxSchedL.Pairwise (fun e1 e2 => ∀ slot g, hits e1.2 slot → hits e2.2 slot →
      g ∈ effGroups e1.2.meta → g ∉ effGroups e2.2.meta)) ∧
    (cxSchedL.Pairwise (fun e1 e2 => ∀ slot rn, rn ≠ "" → hits e1.2 slot →
      hits e2.2 slot → e1.2.room = some rn → e2.2.room ≠ some rn)) ∧
    (∀ e ∈ cxSchedL, ∀ rn, e.2.room = some rn →
      gsLookup [] e.2.meta.group ≤ roomMapCap cxRoomsL rn) ∧
    (detect_clashes cxSchedL 6 cxRoomsL []).room_capacity =
      [CapEntry.avail "lecture" 0 1 0] := by
  refine ⟨List.pairwise_singleton _ _, List.pairwise_singleton _ _,
    List.pairwise_singleton _ _, ?_, by decide⟩
  intro e he rn hr
  simp only [cxSchedL, List.mem_singleton] at he
  subst he
  simp only [gsLookup]
  exact Nat.zero_le _

/-- Witness schedule for C2: one lecture session in a lecture room that
fits its group. -/
def wSchedC2 : List (String × SchedInfo) :=
  [("a", { start := 0, length := 1, room := some "R1", meta :=
    { sess_id := "a", course_id := "C", name := "Math", faculty := "F",
      group := "G", length := 1 } })]

/-- Witness rooms for C2. -/
def wRoomsC2 : List Room := [{ name := "R1", capacity := 30 }]

/-- **C2** witness: the amended theorem applied to a concrete clash-free
schedule, producing all-empty clash lists. -/
theorem detect_clashes_all_empty_witness :
    detect_clashes wSchedC2 6 wRoomsC2 [("G", 20)] = ⟨[], [], [], []⟩ := by
  refine detect_clashes_all_empty wSchedC2 6 wRoomsC2 [("G", 20)]
    (by decide) (List.pairwise_singleton _ _) (List.pairwise_singleton _ _)
    (List.pairwise_singleton _ _) ?_ ?_
  · intro e he rn hr
    simp only [wSchedC2, List.mem_singleton] at he
    subst he
    have hrn : rn = "R1" := by
      injection hr with hh
      exact hh.symm
    subst hrn
    decide
  · intro slot
    have he : typeOps wSchedC2 = [(("lecture", 0), 1)] := by decide
    rw [he]
    refine ⟨?_, ?_, ?_⟩
    · have hcnt : (([((("lecture", 0) : String × Nat), 1)] :
          List ((String × Nat) × Nat)).countP (fun p => p.1 = ("lab", slot))) = 0 := by
        rw [List.countP_eq_zero]
        intro a ha
        rw [List.mem_singleton] at ha
        subst ha
        simp only [decide_eq_true_eq]
        intro h
        have hfst : ("lecture" : String) = "lab" := congrArg Prod.fst h
        exact absurd hfst (by decide)
      rw [hcnt]
      decide
    · exact le_trans (List.countP_le_length _) (by decide)
    · exact le_trans (List.countP_le_length _) (by decide)

/-! ## Claims C8 and C9: the GA genome packing -/

/-- `encode(start, room) = start * 100 + room` (`ga_setup.py` and the seed
encoder in `timetable_generator.py`). -/
def encode (start room : Nat) : Nat := start * 100 + room

/-- `decode(g) = divmod(g, 100)`. -/
def decode (g : Nat) : Nat × Nat := (g / 100, g % 100)

/-- `room_indices = list(range(len(rooms)))` in `setup_ga`, which performs
no bound check on the number of rooms. -/
def roomIndicesOf (rooms : List Room) : List Nat := List.range rooms.length

/-- **C9**: for every `start ≥ 0` and `roomIndex < 100`, decoding
`start·100 + roomIndex` with `divmod(·, 100)` returns exactly
`(start, roomIndex)`, and hence a whole genome of such pairs decodes back
to the original list. -/
theorem encode_decode_roundtrip :
    (∀ start roomIdx : Nat, roomIdx < 100 →
      decode (encode start roomIdx) = (start, roomIdx)) ∧
    (∀ genome : List (Nat × Nat), (∀ p ∈ genome, p.2 < 100) →
      (genome.map (fun p => encode p.1 p.2)).map decode = genome) := by
  have h1 : ∀ start roomIdx : Nat, roomIdx < 100 →
      decode (encode start roomIdx) = (start, roomIdx) := by
    intro s r hr
    unfold encode decode
    have hd : (s * 100 + r) / 100 = s := by omega
    have hm : (s * 100 + r) % 100 = r := by omega
    rw [hd, hm]
  refine ⟨h1, ?_⟩
  intro genome hall
  induction genome with
  | nil => rfl
  | cons p rest ih =>
      simp only [List.map_cons]
      rw [h1 p.1 p.2 (hall p (List.mem_cons_self p rest)),
        ih (fun q hq => hall q (List.mem_cons_of_mem p hq))]

/-- **C9** witness: the round trip at concrete inputs. -/
theorem encode_decode_roundtrip_witness :
    decode (encode 3 42) = (3, 42) ∧
    ([(0, 5), (7, 99)].map (fun p => encode p.1 p.2)).map decode = [(0, 5), (7, 99)] :=
  ⟨encode_decode_roundtrip.1 3 42 (by decide),
    encode_decode_roundtrip.2 [(0, 5), (7, 99)] (by decide)⟩

/-- **C8**: contrary to the claim, setup performs no rejection of large room
lists: with 101 rooms the index 100 is a legal room index for `setup_ga`,
yet the genome packing conflates `(start 0, room 100)` with
`(start 1, room 0)` — the multiplier cannot distinguish room indices at or
above 100.  This documents the code bug behind the claim. -/
theorem setup_ga_accepts_101_rooms :
    100 ∈ roomIndicesOf (List.replicate 101 { name := "R", capacity := 1 }) ∧
    encode 0 100 = encode 1 0 ∧
    decode (encode 0 100) = (1, 0) := by decide

/-! ## Claim C7: no post-condition re-verification -/

/-- The `use_ga = False` return path of `generate_timetable`
(`timetable_generator.py` lines 112–116): wrap the feasible `(start, room)`
pairs into the schedule shape, looking each session up by id.  The source
performs no clash re-detection and has no failure path here; the `Option`
only models the `next(...)` lookup, which cannot fail for the engine's own
outputs. -/
def finalizeSchedule (feasible : List (String × (Nat × Option String)))
    (sessions : List Session) : Option (List (String × SchedInfo)) :=
  feasible.mapM (fun e =>
    match sessions.find? (fun s => decide (s.sess_id = e.1)) with
    | some s => some (e.1, { start := e.2.1, length := s.length, room := e.2.2, meta := s })
    | none => none)

/-- First session of the C7 failing input. -/
def cxSess7a : Session :=
  { sess_id := "a", course_id := "C", name := "N", faculty := "F",
    group := "G1", length := 1 }

/-- Second session of the C7 failing input (same faculty, same slot). -/
def cxSess7b : Session :=
  { sess_id := "b", course_id := "C", name := "N", faculty := "F",
    group := "G2", length := 1 }

/-- **C7**: evaluating the return path of `generate_timetable` on a
start-time mapping that places two sessions of one faculty in the same
slot: the function returns the schedule normally, and running the clash
detector on that very output yields a non-empty faculty clash list — no
`InternalAssertion` (or any re-verification) exists in the code. -/
theorem finalize_returns_clashing_schedule :
    (match finalizeSchedule [("a", (0, none)), ("b", (0, none))] [cxSess7a, cxSess7b] with
      | some sched => (detect_clashes sched 6 [] []).faculty
      | none => []) = [(("F", 0), ["a", "b"])] := by decide

/-! ## GA fitness (`ga_module/fitness.py`, `ga_fitness`)

The function decodes and clamps the genome into the `assign` dict, then
accumulates an integer `hard_penalty` and a real `soft_penalty` in two
independent accumulators and returns `hard + 0.05 * soft` (a one-element
DEAP tuple, unwrapped here).  Real arithmetic is embedded as exact `ℚ`.
The nested `defaultdict` traversals are embedded as nested bucket maps in
the exact insertion order of the source; penalty terms are sums over those
maps in traversal order (addition of the accumulators is commutative, so
each loop becomes the sum of its per-iteration contributions). -/

/-- `absolute_slot(day_idx, pos, slots_per_day)` from `utils/helpers.py`. -/
def absolute_slot (day_idx pos slots_per_day : Nat) : Nat :=
  day_idx * slots_per_day + pos

/-- `build_weekly_block_indices(days, slots_per_day, positions)`. -/
def build_weekly_block_indices (days : List String) (slots_per_day : Nat)
    (positions : List Nat) : List Nat :=
  (List.range days.length).flatMap
    (fun d => positions.map (fun p => absolute_slot d p slots_per_day))

/-- One decoded, clamped gene: `(start, room_idx, length, meta)`. -/
structure DecSess where
  start : Nat
  roomIdx : Nat
  length : Nat
  meta : Session
deriving DecidableEq

/-- `start = max(0, min(start, total_slots - 1))`.  On naturals `max 0` is
the identity; for `total_slots = 0` both Python (via `-1`) and truncated
subtraction give `0`. -/
def clampStart (start total_slots : Nat) : Nat := min start (total_slots - 1)

/-- `room_idx = max(0, min(room_idx, len(rooms) - 1))`. -/
def clampRoom (roomIdx nRooms : Nat) : Nat := min roomIdx (nRooms - 1)

/-- The `assign` dict: one decoded gene per session, keyed by session id
with dict-overwrite semantics. -/
def decodedAssign (ind : List Nat) (sessions : List Session) (rooms : List Room)
    (days : List String) (slots_per_day : Nat) : List (String × DecSess) :=
  (ind.zip sessions).foldl (fun m p =>
    updateAssoc m p.2.sess_id
      { start := clampStart (decode p.1).1 (days.length * slots_per_day),
        roomIdx := clampRoom (decode p.1).2 rooms.length,
        length := p.2.length, meta := p.2 }) []

/-- Faculty-occupancy appends of the fitness pass. -/
def fitFacOps (assign : List (String × DecSess)) : List ((String × Nat) × String) :=
  assign.flatMap (fun e => (List.range e.2.length).map
    (fun off => ((e.2.meta.faculty, e.2.start + off), e.1)))

/-- Group-occupancy appends of the fitness pass (single `meta['group']`). -/
def fitGrpOps (assign : List (String × DecSess)) : List ((String × Nat) × String) :=
  assign.flatMap (fun e => (List.range e.2.length).map
    (fun off => ((e.2.meta.group, e.2.start + off), e.1)))

/-- Room-occupancy appends of the fitness pass, keyed by resolved room
name. -/
def fitRoomOps (assign : List (String × DecSess)) (rooms : List Room) :
    List ((String × Nat) × String) :=
  assign.flatMap (fun e => (List.range e.2.length).map
    (fun off => (((getRoom rooms e.2.roomIdx).name, e.2.start + off), e.1)))

/-- `for k, v in occ.items(): if len(v) > 1: hard += 200 * (len(v) - 1)`. -/
def overlapPenalty (ops : List ((String × Nat) × String)) : Nat :=
  ((buildBuckets ops).map
    (fun p => if p.2.length > 1 then 200 * (p.2.length - 1) else 0)).sum

/-- Appends into `group_daily_slots[group][day]`: in-day position
`(start % P) + off`, day `start // P`. -/
def dailyOps (assign : List (String × DecSess)) (P : Nat) :
    List (String × (Nat × Nat)) :=
  assign.flatMap (fun e => (List.range e.2.length).map
    (fun off => (e.2.meta.group, (e.2.start / P, e.2.start % P + off))))

/-- The nested `group_daily_slots` dict: group → day → in-day positions. -/
def groupDaily (assign : List (String × DecSess)) (P : Nat) :
    List (String × List (Nat × List Nat)) :=
  (buildBuckets (dailyOps assign P)).map (fun p => (p.1, buildBuckets p.2))

/-- `if len(set(slots)) > max: hard += 300 * (len(set(slots)) - max)`. -/
def dailyOverflowPenalty (assign : List (String × DecSess)) (P maxC : Nat) : Nat :=
  ((groupDaily assign P).map (fun gp =>
    (gp.2.map (fun dp =>
      if dp.2.dedup.length > maxC then 300 * (dp.2.dedup.length - maxC) else 0)).sum)).sum

/-- `if group_sizes: ... if size > capacity: hard += 500 + 10 * (size - capacity)`. -/
def capacityPenalty (assign : List (String × DecSess)) (rooms : List Room)
    (gs : List (String × Nat)) : Nat :=
  if gs = [] then 0
  else (assign.map (fun e =>
    if gsLookup gs e.2.meta.group > (getRoom rooms e.2.roomIdx).capacity then
      500 + 10 * (gsLookup gs e.2.meta.group - (getRoom rooms e.2.roomIdx).capacity)
    else 0)).sum

/-- The integer `hard_penalty` accumulator of `ga_fitness`. -/
def hardPenalty (assign : List (String × DecSess)) (rooms : List Room)
    (P maxC : Nat) (gs : List (String × Nat)) : Nat :=
  overlapPenalty (fitFacOps assign) + overlapPenalty (fitGrpOps assign) +
    overlapPenalty (fitRoomOps assign rooms) +
    dailyOverflowPenalty assign P maxC + capacityPenalty assign rooms gs

/-- Population variance `sum((x - avg)^2) / len`, `0` for an empty list
(the source guards with `if vals:`). -/
def variance (vals : List Nat) : ℚ :=
  if vals = [] then 0
  else
    ((vals.map (fun x => ((x : ℚ) - (vals.map (fun y => (y : ℚ))).sum / vals.length) ^ 2)).sum)
      / vals.length

/-- `faculty_hours`: total session length per faculty. -/
def facultyHours (assign : List (String × DecSess)) : List (String × Nat) :=
  buildCnts (assign.map (fun e => (e.2.meta.faculty, e.2.length)))

/-- `sorted(set(slots))`. -/
def sortedSet (l : List Nat) : List Nat := List.insertionSort (· ≤ ·) l.dedup

/-- Idle-slot count between consecutive distinct sorted slots. -/
def gapCount : List Nat → Nat
  | a :: b :: rest => (if b > a + 1 then 1 else 0) + gapCount (b :: rest)
  | _ => 0

/-- The running-`consec` inner loop of the consecutive-block penalty. -/
def consecPenAux (maxC prev consec : Nat) : List Nat → Nat
  | [] => 0
  | x :: rest =>
      if x = prev + 1 then
        (if consec + 1 > maxC then 10 * (consec + 1 - maxC) else 0) +
          consecPenAux maxC x (consec + 1) rest
      else consecPenAux maxC x 1 rest

/-- `consec = 1; for i in range(1, len) ...` over a sorted slot list. -/
def consecPen (maxC : Nat) : List Nat → Nat
  | [] => 0
  | x :: rest => consecPenAux maxC x 1 rest

/-- The nested `faculty_daily` dict: faculty → day → load. -/
def facultyDaily (assign : List (String × DecSess)) (P : Nat) :
    List (String × List (Nat × Nat)) :=
  (buildBuckets (assign.map (fun e => (e.2.meta.faculty, (e.2.start / P, e.2.length))))).map
    (fun p => (p.1, buildCnts p.2))

/-- Signed idle-gap sum `sum(a[i] - a[i-1] - 1)` over a sorted list with
duplicates (duplicates contribute `-1`, exactly as in Python). -/
def gapSumInt : List Nat → Int
  | a :: b :: rest => ((b : Int) - (a : Int) - 1) + gapSumInt (b :: rest)
  | _ => 0

/-- Per-group day-balance plus clustering penalty (both guarded by
`total_sessions > 0`). -/
def dayBalancePen (f : ℚ) (inner : List (Nat × List Nat)) : ℚ :=
  let total := (inner.map (fun dp => dp.2.dedup.length)).sum
  if total = 0 then 0
  else
    (inner.map (fun dp =>
      let cnt := dp.2.dedup.length
      let c : Int := Int.ceil (f * (total : ℚ))
      if (cnt : Int) > c then 100 * ((cnt : ℚ) - (c : ℚ)) else 0)).sum +
    2 * ((gapSumInt (List.insertionSort (fun a b => a ≤ b) (inner.flatMap Prod.snd)) : ℚ))

/-- Nested `defaultdict(int)` access `outer[g].get(k, 0)`. -/
def nestedCnt (ops : List (String × (Nat × Nat))) (g : String) (k : Nat) : Nat :=
  getCnt (buildCnts (getBucket (buildBuckets ops) g)) k

/-- `elective_slots` increments. -/
def elecSlotOps (assign : List (String × DecSess)) (egroups : List String) :
    List (String × (Nat × Nat)) :=
  assign.flatMap (fun e =>
    if e.2.meta.group ∈ egroups ∧ containsElective (lowerData e.2.meta.name) then
      (List.range e.2.length).map (fun off => (e.2.meta.group, (e.2.start + off, 1)))
    else [])

/-- `elective_days` increments (`+= length`). -/
def elecDayOps (assign : List (String × DecSess)) (P : Nat) (egroups : List String) :
    List (String × (Nat × Nat)) :=
  assign.filterMap (fun e =>
    if e.2.meta.group ∈ egroups ∧ containsElective (lowerData e.2.meta.name) then
      some (e.2.meta.group, (e.2.start / P, e.2.length))
    else none)

/-- Largest element of a list of naturals (`max(...)`; the source only
calls it on nonempty lists). -/
def maxList (l : List Nat) : Nat := l.foldr max 0

/-- Elective overlap and day-concentration penalties. -/
def electivePen (assign : List (String × DecSess)) (days : List String) (P : Nat)
    (egroups : List String) : ℚ :=
  ((List.range (days.length * P)).map (fun slot =>
    let s := (egroups.map (fun g => nestedCnt (elecSlotOps assign egroups) g slot)).sum
    if s > 1 then (50 : ℚ) * ((s : ℚ) - 1) else 0)).sum +
  ((List.range days.length).map (fun day =>
    let dc := egroups.map (fun g => nestedCnt (elecDayOps assign P egroups) g day)
    if dc.sum > 0 ∧ ((maxList dc : ℚ) > (dc.sum : ℚ) / (egroups.length : ℚ)) then
      (30 : ℚ) * ((maxList dc : ℚ) - (dc.sum : ℚ) / (egroups.length : ℚ))
    else 0)).sum

/-- Faculty morning/afternoon preference penalty for one entry. -/
def prefPen (fprefs : List (String × String)) (P : Nat) (e : String × DecSess) : ℚ :=
  match lookupA fprefs e.2.meta.faculty with
  | some pref =>
      if pref = "morning" then (if ¬(e.2.start % P < P / 2) then 20 else 0)
      else if pref = "afternoon" then
        (if ¬(P / 2 ≤ e.2.start % P ∧ e.2.start % P < P) then 20 else 0)
      else 0
  | none => 0

/-- Project-block misalignment penalty for one entry. -/
def projPen (projectSlots : List Nat) (isProj : Session → Bool)
    (e : String × DecSess) : ℚ :=
  if isProj e.2.meta then 0
  else ((List.range e.2.length).map
    (fun off => if e.2.start + off ∈ projectSlots then (5 : ℚ) else 0)).sum

/-- The real `soft_penalty` accumulator of `ga_fitness`: workload variance,
student gaps, consecutive-block overruns, faculty daily overload, group
daily-load variance, day balance and clustering, electives, faculty
preferences, and project-block alignment, in source order. -/
def softPenalty (assign : List (String × DecSess))
    (days : List String) (P maxConsec maxDailyFac : Nat)
    (pbp : Option (List Nat)) (ipf : Option (Session → Bool))
    (f : ℚ) (egroups : Option (List String))
    (fprefs : Option (List (String × String))) : ℚ :=
  variance ((facultyHours assign).map Prod.snd) +
  ((groupDaily assign P).map (fun gp =>
    (gp.2.map (fun dp => (gapCount (sortedSet dp.2) : ℚ))).sum)).sum +
  ((groupDaily assign P).map (fun gp =>
    (gp.2.map (fun dp => (consecPen maxConsec (sortedSet dp.2) : ℚ))).sum)).sum +
  ((facultyDaily assign P).map (fun fp =>
    (fp.2.map (fun dl =>
      if dl.2 > maxDailyFac then (10 : ℚ) * ((dl.2 : ℚ) - (maxDailyFac : ℚ)) else 0)).sum)).sum +
  ((groupDaily assign P).map (fun gp =>
    variance (gp.2.map (fun dp => dp.2.dedup.length)) * 5)).sum +
  ((groupDaily assign P).map (fun gp => dayBalancePen f gp.2)).sum +
  (match egroups with
    | some (g :: egs) => electivePen assign days P (g :: egs)
    | _ => 0) +
  (match fprefs with
    | some (q :: qs) => (assign.map (prefPen (q :: qs) P)).sum
    | _ => 0) +
  (match pbp, ipf with
    | some (p :: ps), some isProj =>
        (assign.map (projPen (build_weekly_block_indices days P (p :: ps)) isProj)).sum
    | _, _ => 0)

/-- `ga_fitness(ind, sessions, rooms, days, slots_per_day, ...)`: the
returned fitness value (the single element of the DEAP tuple). -/
def ga_fitness (ind : List Nat) (sessions : List Session) (rooms : List Room)
    (days : List String) (slots_per_day : Nat)
    (max_classes_per_day max_consec_slots max_daily_hours_per_faculty : Nat)
    (project_block_positions : Option (List Nat))
    (is_project_func : Option (Session → Bool))
    (group_sizes : List (String × Nat)) (day_balance_fraction : ℚ)
    (elective_groups : Option (List String))
    (faculty_prefs : Option (List (String × String))) : ℚ :=
  (hardPenalty (decodedAssign ind sessions rooms days slots_per_day) rooms
      slots_per_day max_classes_per_day group_sizes : ℚ) +
    (0.05 : ℚ) *
      softPenalty (decodedAssign ind sessions rooms days slots_per_day)
        days slots_per_day max_consec_slots max_daily_hours_per_faculty
        project_block_positions is_project_func day_balance_fraction
        elective_groups faculty_prefs

/-! ### The claim-side hard-penalty formula and its equality to the code -/

/-- Number of decoded (session, offset) occupancies of one (resource, slot)
key. -/
def occCount (ops : List ((String × Nat) × String)) (k : String × Nat) : Nat :=
  ops.countP (fun p => p.1 = k)

/-- Claim-side overlap term: `200 · (cardinality − 1)` summed over every
(resource, slot) key occupied by more than one session. -/
def specOverlap (ops : List ((String × Nat) × String)) : Nat :=
  (((ops.map Prod.fst).dedup).map (fun k =>
    if 1 < occCount ops k then 200 * (occCount ops k - 1) else 0)).sum

theorem overlapPenalty_eq_spec (ops : List ((String × Nat) × String)) :
    overlapPenalty ops = specOverlap ops := by
  rw [overlapPenalty, specOverlap]
  have hmap : (buildBuckets ops).map
      (fun p => if p.2.length > 1 then 200 * (p.2.length - 1) else 0) =
      ((buildBuckets ops).map Prod.fst).map (fun k =>
        if 1 < occCount ops k then 200 * (occCount ops k - 1) else 0) := by
    rw [List.map_map]
    apply List.map_congr_left
    intro p hp
    have hval := value_eq_getBucket_of_nodupKeys (buildBuckets ops)
      (nodupKeys_buildBuckets ops) p hp
    have hlen : p.2.length = occCount ops p.1 := by
      rw [hval, getBucket_buildBuckets, List.length_map,
        ← List.countP_eq_length_filter, occCount]
    simp only [Function.comp, hlen, gt_iff_lt]
  rw [hmap]
  have hperm : List.Perm ((buildBuckets ops).map Prod.fst) ((ops.map Prod.fst).dedup) := by
    rw [List.perm_ext_iff_of_nodup (nodupKeys_buildBuckets ops) (List.nodup_dedup _)]
    intro k
    rw [mem_keys_buildBuckets, List.mem_dedup]
  exact (hperm.map _).sum_eq

/-- The (group, day) key of a `group_daily_slots` append. -/
def dailyKey (p : String × (Nat × Nat)) : String × Nat := (p.1, p.2.1)

/-- Claim-side count of distinct occupied in-day slots of one
(group, day). -/
def distinctDaySlots (assign : List (String × DecSess)) (P : Nat)
    (k : String × Nat) : Nat :=
  ((((dailyOps assign P).filter (fun p => dailyKey p = k)).map
    (fun p => p.2.2)).dedup).length

/-- Claim-side daily-overflow term: `300 · excess` summed over every
(group, day) whose distinct in-day slot count exceeds the cap. -/
def specDailyOverflow (assign : List (String × DecSess)) (P maxC : Nat) : Nat :=
  ((((dailyOps assign P).map dailyKey).dedup).map (fun k =>
    if maxC < distinctDaySlots assign P k then
      300 * (distinctDaySlots assign P k - maxC) else 0)).sum

theorem sum_map_flatMap {α β : Type} (l : List α) (g : α → List β) (F : β → Nat) :
    ((l.flatMap g).map F).sum = (l.map (fun a => ((g a).map F).sum)).sum := by
  induction l with
  | nil => rfl
  | cons a rest ih => simp [List.flatMap_cons, ih]

/-- The inner bucket of the nested `group_daily_slots` map is the filtered
position list of its (group, day) key. -/
theorem groupDaily_inner_bucket (assign : List (String × DecSess)) (P : Nat)
    (gp : String × List (Nat × List Nat)) (hgp : gp ∈ groupDaily assign P)
    (dp : Nat × List Nat) (hdp : dp ∈ gp.2) :
    dp.2 = ((dailyOps assign P).filter
      (fun p => dailyKey p = (gp.1, dp.1))).map (fun p => p.2.2) := by
  rw [groupDaily] at hgp
  obtain ⟨q, hq, hq2⟩ := List.mem_map.mp hgp
  have hq1 : q.1 = gp.1 := by rw [← hq2]
  have hinner : gp.2 = buildBuckets q.2 := by rw [← hq2]
  have hqval := value_eq_getBucket_of_nodupKeys (buildBuckets (dailyOps assign P))
    (nodupKeys_buildBuckets (dailyOps assign P)) q hq
  rw [hinner] at hdp
  have hdval := value_eq_getBucket_of_nodupKeys (buildBuckets q.2)
    (nodupKeys_buildBuckets q.2) dp hdp
  rw [hdval, getBucket_buildBuckets, hqval, getBucket_buildBuckets,
    List.filter_map, List.map_map, List.filter_filter]
  apply congrArg
  apply List.filter_congr
  intro p _
  simp only [dailyKey, Prod.mk.injEq, hq1]
  by_cases h1 : p.1 = gp.1 <;> by_cases h2 : p.2.1 = dp.1 <;> simp [h1, h2]

/-- The (group, day) keys in nested traversal order. -/
def dailyPairs (assign : List (String × DecSess)) (P : Nat) : List (String × Nat) :=
  (groupDaily assign P).flatMap (fun gp => gp.2.map (fun dp => (gp.1, dp.1)))

theorem dailyPairs_nodup (assign : List (String × DecSess)) (P : Nat) :
    (dailyPairs assign P).Nodup := by
  rw [dailyPairs, List.nodup_flatMap]
  constructor
  · intro gp hgp
    rw [groupDaily] at hgp
    obtain ⟨q, hq, hq2⟩ := List.mem_map.mp hgp
    have hinner : gp.2 = buildBuckets q.2 := by rw [← hq2]
    rw [hinner]
    have : (buildBuckets q.2).map (fun dp => (gp.1, dp.1)) =
        ((buildBuckets q.2).map Prod.fst).map (fun d => (gp.1, d)) := by
      rw [List.map_map]
      rfl
    rw [this]
    refine List.Nodup.map ?_ (nodupKeys_buildBuckets q.2)
    intro d1 d2 h
    exact congrArg Prod.snd h
  · have hkeys : (groupDaily assign P).map Prod.fst =
        (buildBuckets (dailyOps assign P)).map Prod.fst := by
      rw [groupDaily, List.map_map]
      rfl
    have hpw : (groupDaily assign P).Pairwise (fun gp1 gp2 => gp1.1 ≠ gp2.1) := by
      apply List.pairwise_map.mp
      rw [hkeys]
      exact nodupKeys_buildBuckets (dailyOps assign P)
    refine List.Pairwise.imp_of_mem ?_ hpw
    intro gp1 gp2 _ _ hne
    intro x hx1 hx2
    simp only [Function.onFun] at hx1 hx2
    obtain ⟨d1, _, rfl⟩ := List.mem_map.mp hx1
    obtain ⟨d2, _, heq⟩ := List.mem_map.mp hx2
    exact hne (congrArg Prod.fst heq).symm

theorem dailyPairs_mem (assign : List (String × DecSess)) (P : Nat) (k : String × Nat) :
    k ∈ dailyPairs assign P ↔ k ∈ (dailyOps assign P).map dailyKey := by
  constructor
  · intro h
    rw [dailyPairs] at h
    obtain ⟨gp, hgp, hmem⟩ := List.mem_flatMap.mp h
    obtain ⟨dp, hdp, hk⟩ := List.mem_map.mp hmem
    rw [groupDaily] at hgp
    obtain ⟨q, hq, hq2⟩ := List.mem_map.mp hgp
    have hg : gp.1 = q.1 := by rw [← hq2]
    have hinner : gp.2 = buildBuckets q.2 := by rw [← hq2]
    rw [hinner] at hdp
    have hd : dp.1 ∈ (buildBuckets q.2).map Prod.fst := List.mem_map_of_mem Prod.fst hdp
    rw [mem_keys_buildBuckets] at hd
    have hqval := value_eq_getBucket_of_nodupKeys (buildBuckets (dailyOps assign P))
      (nodupKeys_buildBuckets (dailyOps assign P)) q hq
    rw [hqval, getBucket_buildBuckets, List.map_map] at hd
    obtain ⟨p, hp, hp2⟩ := List.mem_map.mp hd
    have hp3 := List.of_mem_filter hp
    simp only [decide_eq_true_eq] at hp3
    have hval : dailyKey p = k := by
      rw [← hk, dailyKey]
      have hfst : p.1 = gp.1 := by rw [hp3, hg]
      have hsnd : p.2.1 = dp.1 := hp2
      rw [hfst, hsnd]
    exact hval ▸ List.mem_map_of_mem dailyKey (List.mem_of_mem_filter hp)
  · intro h
    obtain ⟨p, hp, hk⟩ := List.mem_map.mp h
    rw [dailyPairs]
    rw [List.mem_flatMap]
    -- the outer bucket of p's group exists
    have hg : p.1 ∈ (buildBuckets (dailyOps assign P)).map Prod.fst := by
      rw [mem_keys_buildBuckets]
      exact List.mem_map_of_mem Prod.fst hp
    obtain ⟨q, hq, hq1⟩ := List.mem_map.mp hg
    refine ⟨(q.1, buildBuckets q.2), ?_, ?_⟩
    · rw [groupDaily]
      exact List.mem_map_of_mem _ hq
    · rw [List.mem_map]
      -- the inner bucket of p's day exists
      have hqval := value_eq_getBucket_of_nodupKeys (buildBuckets (dailyOps assign P))
        (nodupKeys_buildBuckets (dailyOps assign P)) q hq
      have hpin : p.2 ∈ q.2 := by
        rw [hqval, getBucket_buildBuckets]
        refine List.mem_map_of_mem Prod.snd (List.mem_filter.mpr ⟨hp, ?_⟩)
        simp [hq1]
      have hd : p.2.1 ∈ (buildBuckets q.2).map Prod.fst := by
        rw [mem_keys_buildBuckets]
        exact List.mem_map_of_mem Prod.fst hpin
      obtain ⟨dq, hdq, hdq1⟩ := List.mem_map.mp hd
      refine ⟨dq, hdq, ?_⟩
      rw [← hk, dailyKey, hdq1, hq1]

theorem dailyOverflow_eq_spec (assign : List (String × DecSess)) (P maxC : Nat) :
    dailyOverflowPenalty assign P maxC = specDailyOverflow assign P maxC := by
  rw [dailyOverflowPenalty, specDailyOverflow]
  have hstep : (groupDaily assign P).map (fun gp =>
      (gp.2.map (fun dp =>
        if dp.2.dedup.length > maxC then 300 * (dp.2.dedup.length - maxC) else 0)).sum) =
      (groupDaily assign P).map (fun gp =>
        ((gp.2.map (fun dp => (gp.1, dp.1))).map (fun k =>
          if maxC < distinctDaySlots assign P k then
            300 * (distinctDaySlots assign P k - maxC) else 0)).sum) := by
    apply List.map_congr_left
    intro gp hgp
    rw [List.map_map]
    apply congrArg
    apply List.map_congr_left
    intro dp hdp
    have hbucket := groupDaily_inner_bucket assign P gp hgp dp hdp
    have hlen : dp.2.dedup.length = distinctDaySlots assign P (gp.1, dp.1) := by
      rw [hbucket, distinctDaySlots]
    simp only [Function.comp, hlen, gt_iff_lt]
  rw [hstep]
  have hflat : ((groupDaily assign P).map (fun gp =>
      ((gp.2.map (fun dp => (gp.1, dp.1))).map (fun k =>
        if maxC < distinctDaySlots assign P k then
          300 * (distinctDaySlots assign P k - maxC) else 0)).sum)).sum =
      ((dailyPairs assign P).map (fun k =>
        if maxC < distinctDaySlots assign P k then
          300 * (distinctDaySlots assign P k - maxC) else 0)).sum := by
    rw [dailyPairs, ← sum_map_flatMap]
  rw [hflat]
  have hperm : List.Perm (dailyPairs assign P) (((dailyOps assign P).map dailyKey).dedup) := by
    rw [List.perm_ext_iff_of_nodup (dailyPairs_nodup assign P) (List.nodup_dedup _)]
    intro k
    rw [dailyPairs_mem, List.mem_dedup]
  exact (hperm.map _).sum_eq

/-- Claim-side hard component of the fitness. -/
def specHard (assign : List (String × DecSess)) (rooms : List Room)
    (P maxC : Nat) (gs : List (String × Nat)) : Nat :=
  specOverlap (fitFacOps assign) + specOverlap (fitGrpOps assign) +
    specOverlap (fitRoomOps assign rooms) + specDailyOverflow assign P maxC +
    capacityPenalty assign rooms gs

theorem hardPenalty_eq_spec (assign : List (String × DecSess)) (rooms : List Room)
    (P maxC : Nat) (gs : List (String × Nat)) :
    hardPenalty assign rooms P maxC gs = specHard assign rooms P maxC gs := by
  rw [hardPenalty, specHard, overlapPenalty_eq_spec, overlapPenalty_eq_spec,
    overlapPenalty_eq_spec, dailyOverflow_eq_spec]

/-- The decoded assignment has no resource overlap, no group daily-slot
overflow, and no room-capacity violation. -/
def NoHardViolations (assign : List (String × DecSess)) (rooms : List Room)
    (P maxC : Nat) (gs : List (String × Nat)) : Prop :=
  (∀ k, occCount (fitFacOps assign) k ≤ 1) ∧
  (∀ k, occCount (fitGrpOps assign) k ≤ 1) ∧
  (∀ k, occCount (fitRoomOps assign rooms) k ≤ 1) ∧
  (∀ k, distinctDaySlots assign P k ≤ maxC) ∧
  (∀ e ∈ assign, gsLookup gs e.2.meta.group ≤ (getRoom rooms e.2.roomIdx).capacity)

theorem specHard_eq_zero (assign : List (String × DecSess)) (rooms : List Room)
    (P maxC : Nat) (gs : List (String × Nat))
    (h : NoHardViolations assign rooms P maxC gs) :
    specHard assign rooms P maxC gs = 0 := by
  obtain ⟨h1, h2, h3, h4, h5⟩ := h
  have hov : ∀ (ops : List ((String × Nat) × String)),
      (∀ k, occCount ops k ≤ 1) → specOverlap ops = 0 := by
    intro ops hle
    rw [specOverlap, List.sum_eq_zero]
    intro x hx
    obtain ⟨k, _, rfl⟩ := List.mem_map.mp hx
    rw [if_neg]
    intro hgt
    exact absurd (hle k) (by omega)
  have hdo : specDailyOverflow assign P maxC = 0 := by
    rw [specDailyOverflow, List.sum_eq_zero]
    intro x hx
    obtain ⟨k, _, rfl⟩ := List.mem_map.mp hx
    rw [if_neg]
    intro hgt
    exact absurd (h4 k) (by omega)
  have hcapz : capacityPenalty assign rooms gs = 0 := by
    rw [capacityPenalty]
    by_cases hgs : gs = []
    · rw [if_pos hgs]
    · rw [if_neg hgs, List.sum_eq_zero]
      intro x hx
      obtain ⟨e, he, rfl⟩ := List.mem_map.mp hx
      rw [if_neg]
      intro hgt
      exact absurd (h5 e he) (by omega)
  rw [specHard, hov _ h1, hov _ h2, hov _ h3, hdo, hcapz]

theorem distinctDaySlots_le (assign : List (String × DecSess)) (P : Nat)
    (k : String × Nat) :
    distinctDaySlots assign P k ≤ (dailyOps assign P).length := by
  rw [distinctDaySlots]
  calc ((((dailyOps assign P).filter (fun p => dailyKey p = k)).map
      (fun p => p.2.2)).dedup).length
      ≤ (((dailyOps assign P).filter (fun p => dailyKey p = k)).map
        (fun p => p.2.2)).length := List.Sublist.length_le (List.dedup_sublist _)
    _ = ((dailyOps assign P).filter (fun p => dailyKey p = k)).length :=
        List.length_map _ _
    _ ≤ (dailyOps assign P).length := List.length_filter_le _ _

/-! ## Claims C3 and C10: the fitness function -/

/-- **C3**: `ga_fitness` returns exactly `hard + 0.05 · soft`, where the
hard component is the claim's explicit formula — `200·(cardinality−1)` over
every multiply-occupied (faculty, slot), (group, slot) and (room, slot),
`300·excess` over every (group, day) whose distinct in-day slot count
exceeds the cap, and `500 + 10·(size − capacity)` per capacity-violating
session when `group_sizes` is supplied; consequently a genome whose decoded
assignment has no overlap, overflow or capacity violation has hard
component zero and fitness exactly `0.05` times the soft penalty. -/
theorem ga_fitness_formula (ind : List Nat) (sessions : List Session)
    (rooms : List Room) (days : List String) (P maxC maxConsec maxDailyFac : Nat)
    (pbp : Option (List Nat)) (ipf : Option (Session → Bool))
    (gs : List (String × Nat)) (f : ℚ) (egroups : Option (List String))
    (fprefs : Option (List (String × String))) :
    ga_fitness ind sessions rooms days P maxC maxConsec maxDailyFac pbp ipf
        gs f egroups fprefs =
      (specHard (decodedAssign ind sessions rooms days P) rooms P maxC gs : ℚ) +
        (0.05 : ℚ) * softPenalty (decodedAssign ind sessions rooms days P)
          days P maxConsec maxDailyFac pbp ipf f egroups fprefs ∧
    (NoHardViolations (decodedAssign ind sessions rooms days P) rooms P maxC gs →
      ga_fitness ind sessions rooms days P maxC maxConsec maxDailyFac pbp ipf
          gs f egroups fprefs =
        (0.05 : ℚ) * softPenalty (decodedAssign ind sessions rooms days P)
          days P maxConsec maxDailyFac pbp ipf f egroups fprefs) := by
  have h1 : ga_fitness ind sessions rooms days P maxC maxConsec maxDailyFac pbp ipf
      gs f egroups fprefs =
      (specHard (decodedAssign ind sessions rooms days P) rooms P maxC gs : ℚ) +
        (0.05 : ℚ) * softPenalty (decodedAssign ind sessions rooms days P)
          days P maxConsec maxDailyFac pbp ipf f egroups fprefs := by
    rw [ga_fitness, hardPenalty_eq_spec]
  refine ⟨h1, fun hnv => ?_⟩
  rw [h1, specHard_eq_zero _ _ _ _ _ hnv]
  norm_num

/-- Session of the C3 witness. -/
def wSessC3 : Session :=
  { sess_id := "a", course_id := "C", name := "Math", faculty := "F",
    group := "G", length := 1 }

/-- **C3** witness: the decomposition evaluated on a one-session genome,
whose decoded assignment is violation-free, so the fitness is `0.05` times
the soft penalty. -/
theorem ga_fitness_formula_witness :
    ga_fitness [0] [wSessC3] [{ name := "R1", capacity := 30 }] ["Mon"] 6 5 3 5
        none none [("G", 20)] (2/5 : ℚ) none none =
      (specHard (decodedAssign [0] [wSessC3] [{ name := "R1", capacity := 30 }] ["Mon"] 6)
          [{ name := "R1", capacity := 30 }] 6 5 [("G", 20)] : ℚ) +
        (0.05 : ℚ) * softPenalty
          (decodedAssign [0] [wSessC3] [{ name := "R1", capacity := 30 }] ["Mon"] 6)
          ["Mon"] 6 3 5 none none (2/5 : ℚ) none none ∧
    ga_fitness [0] [wSessC3] [{ name := "R1", capacity := 30 }] ["Mon"] 6 5 3 5
        none none [("G", 20)] (2/5 : ℚ) none none =
      (0.05 : ℚ) * softPenalty
        (decodedAssign [0] [wSessC3] [{ name := "R1", capacity := 30 }] ["Mon"] 6)
        ["Mon"] 6 3 5 none none (2/5 : ℚ) none none := by
  have hform := ga_fitness_formula [0] [wSessC3] [{ name := "R1", capacity := 30 }]
    ["Mon"] 6 5 3 5 none none [("G", 20)] (2/5 : ℚ) none none
  refine ⟨hform.1, hform.2 ?_⟩
  refine ⟨?_, ?_, ?_, ?_, by decide⟩
  · intro k
    exact le_trans (List.countP_le_length _) (by decide)
  · intro k
    exact le_trans (List.countP_le_length _) (by decide)
  · intro k
    exact le_trans (List.countP_le_length _) (by decide)
  · intro k
    exact le_trans (distinctDaySlots_le _ _ _) (by decide)

/-- **C10**: for nonnegative genomes over nonempty room and day lists (and
a positive `slots_per_day`, the calendar invariant), the fitness decoding
clamps every start into `[0, D·P − 1]` and every room index into
`[0, len(rooms) − 1]`, so every entry of the decoded assignment is
in range and `ga_fitness`'s room lookups never go out of bounds. -/
theorem decodedAssign_in_range (ind : List Nat) (sessions : List Session)
    (rooms : List Room) (days : List String) (P : Nat)
    (hr : rooms ≠ []) (hd : days ≠ []) (hp : 0 < P) :
    (∀ g : Nat, clampStart (decode g).1 (days.length * P) ≤ days.length * P - 1 ∧
      clampRoom (decode g).2 rooms.length ≤ rooms.length - 1) ∧
    ∀ e ∈ decodedAssign ind sessions rooms days P,
      e.2.start < days.length * P ∧ e.2.roomIdx < rooms.length := by
  have hdp : 0 < days.length * P :=
    Nat.mul_pos (List.length_pos.mpr hd) hp
  have hrl : 0 < rooms.length := List.length_pos.mpr hr
  constructor
  · intro g
    exact ⟨Nat.min_le_right _ _, Nat.min_le_right _ _⟩
  · have hmem : ∀ (l : List (Nat × Session)) (m : List (String × DecSess)),
        (∀ e ∈ m, e.2.start < days.length * P ∧ e.2.roomIdx < rooms.length) →
        ∀ e ∈ l.foldl (fun m p => updateAssoc m p.2.sess_id
          { start := clampStart (decode p.1).1 (days.length * P),
            roomIdx := clampRoom (decode p.1).2 rooms.length,
            length := p.2.length, meta := p.2 }) m,
          e.2.start < days.length * P ∧ e.2.roomIdx < rooms.length := by
      intro l
      induction l with
      | nil => intro m hm e he; exact hm e he
      | cons p rest ih =>
          intro m hm e he
          refine ih _ ?_ e he
          intro e2 he2
          have hsplit : ∀ (m2 : List (String × DecSess)) (k : String) (v : DecSess),
              e2 ∈ updateAssoc m2 k v → e2 ∈ m2 ∨ e2 = (k, v) := by
            intro m2
            induction m2 with
            | nil =>
                intro k v hh
                rw [updateAssoc, List.mem_singleton] at hh
                exact Or.inr hh
            | cons q mrest ih2 =>
                intro k v hh
                rw [updateAssoc] at hh
                by_cases hk : q.1 = k
                · simp only [hk, if_true] at hh
                  rcases List.mem_cons.mp hh with rfl | hh2
                  · exact Or.inr (by simp [hk])
                  · exact Or.inl (List.mem_cons_of_mem q hh2)
                · simp only [hk, if_false] at hh
                  rcases List.mem_cons.mp hh with rfl | hh2
                  · exact Or.inl (List.mem_cons_self q mrest)
                  · rcases ih2 k v hh2 with hin | heq
                    · exact Or.inl (List.mem_cons_of_mem q hin)
                    · exact Or.inr heq
          rcases hsplit m p.2.sess_id _ he2 with hin | heq
          · exact hm e2 hin
          · rw [heq]
            refine ⟨?_, ?_⟩
            · show clampStart (decode p.1).1 (days.length * P) < days.length * P
              rw [clampStart]
              have := Nat.min_le_right (decode p.1).1 (days.length * P - 1)
              omega
            · show clampRoom (decode p.1).2 rooms.length < rooms.length
              rw [clampRoom]
              have := Nat.min_le_right (decode p.1).2 (rooms.length - 1)
              omega
    intro e he
    rw [decodedAssign] at he
    exact hmem (ind.zip sessions) [] (by intro e2 he2; cases he2) e he

/-- **C10** witness: the clamping at a concrete out-of-domain genome (gene
`987654` decodes to start `9876`, room `54`, far outside one day of six
slots and one room). -/
theorem decodedAssign_in_range_witness :
    ((∀ g : Nat, clampStart (decode g).1 ((["Mon"] : List String).length * 6) ≤
        (["Mon"] : List String).length * 6 - 1 ∧
      clampRoom (decode g).2 ([{ name := "R1", capacity := 30 }] : List Room).length ≤
        ([{ name := "R1", capacity := 30 }] : List Room).length - 1) ∧
    ∀ e ∈ decodedAssign [987654] [wSessC3] [{ name := "R1", capacity := 30 }] ["Mon"] 6,
      e.2.start < (["Mon"] : List String).length * 6 ∧
        e.2.roomIdx < ([{ name := "R1", capacity := 30 }] : List Room).length) :=
  decodedAssign_in_range [987654] [wSessC3] [{ name := "R1", capacity := 30 }]
    ["Mon"] 6 (by decide) (by decide) (by decide)
